import Mathlib

/-!
Shallow embedding of the route-optimization engine of `code_samples_rmecca`
(`tsp_solver.py`, `mission_planner.py`, `vessel_sim_engine.py`) and proofs
about it.  Fuel, distance and time values (Python floats) are modelled as
rationals; Python's `float('inf')` sentinel (`maxsize` in both source files)
is modelled as `⊤` in `WithTop ℚ`.  The geodesic distance routine
(`geod.Inverse`, an external collaborator per the design) is a parameter.
-/

namespace RouteOpt

/-- Fuel/cost values together with the `float('inf')` sentinel. -/
abbrev CostI : Type := WithTop ℚ

/-! ## Data model (`vessel_sim_engine.py`) -/

/-- `Waypoint`: a latitude/longitude pair. -/
structure Waypoint where
  lat : ℚ
  long : ℚ
deriving DecidableEq, Repr

/-- Arrival times as stored on a `Destination`: either an actual time stamp or
the `datetime.now` function object that `plan_mission`'s fallback line stores
verbatim (`mission_planner.py` line 110). -/
inductive ArrTime where
  | stamp (t : ℚ)
  | nowFn
deriving DecidableEq, Repr

/-- `Destination`: waypoint, goal arrival time, priority, plus the mutable
`visited` flag (initialised `False` by the constructor). -/
structure Destination where
  waypoint : Waypoint
  arrival_time : ArrTime
  priority : ℕ
  visited : Bool
deriving DecidableEq, Repr

/-- `Destination.__init__`: `visited` always starts out `False`. -/
def mkDestination (wp : Waypoint) (t : ArrTime) (p : ℕ) : Destination :=
  ⟨wp, t, p, false⟩

/-- `Mission`: destination list, cursor, and derived total priority. -/
structure Mission where
  destinations : List Destination
  current_waypoint_index : ℕ
  total_priority : ℕ
deriving DecidableEq, Repr

/-- `Mission.__init__`: `total_priority` is the sum of the members' priorities
and the cursor starts at 0. -/
def mkMission (dests : List Destination) : Mission :=
  ⟨dests, 0, (dests.map Destination.priority).sum⟩

/-- `vesselFuel.calc_fuel_burned`: `0.05 * speed**3 * time_interval`. -/
def calc_fuel_burned (speed time_interval : ℚ) : ℚ :=
  0.05 * speed ^ 3 * time_interval

/-! ## `tsp_solver.py`

The solver only ever reads `adj_mat[i][j].fuel_burned`, so it is embedded
against a fuel matrix `w : ℕ → ℕ → ℚ` (the `.fuel_burned` projection of the
adjacency matrix built by `mission_planner.waypoint_list_to_matrix`). -/

/-- Sum of consecutive-edge fuels along a list of indices, the loop
`for e in range(0, len(edges)-1): total += adj[edges[e]][edges[e+1]].fuel_burned`. -/
def pairFuel (w : ℕ → ℕ → ℚ) : List ℕ → ℚ
  | a :: b :: t => w a b + pairFuel w (b :: t)
  | _ => 0

/-- Total fuel of a complete visiting order: consecutive edges plus the final
edge `adj[edges[len(edges)-1]][num_coords]` to the end node.  This loop appears
verbatim both at the end of `calc_TSP_fast` (lines 110-112) and in the
complete-permutation case of `genPerms` (lines 130-133). -/
def tourFuel (w : ℕ → ℕ → ℚ) (numCoords : ℕ) (edges : List ℕ) : ℚ :=
  pairFuel w edges + w (edges.getD (edges.length - 1) 0) numCoords

/-- Inner scan of `calc_TSP_fast`: for the node `v` being inserted, find
`best_insert`, the first position `i` minimising `fuel2+fuel1-fuel3` under a
strict `<` against the running minimum (initially `maxsize`). -/
def bestInsertScan (w : ℕ → ℕ → ℚ) (v : ℕ) (edges : List ℕ) : ℕ :=
  ((List.range edges.length).foldl
    (fun acc i =>
      let fuel1 := w v (edges.getD i 0)
      let fuel2 := if i ≠ edges.length - 1 then w v (edges.getD (i+1) 0)
                   else w v (edges.getD 0 0)
      let fuel3 := if i ≠ edges.length - 1 then w (edges.getD i 0) (edges.getD (i+1) 0)
                   else w (edges.getD i 0) (edges.getD 0 0)
      if (↑(fuel2 + fuel1 - fuel3) : CostI) < acc.2 then (i, (↑(fuel2 + fuel1 - fuel3) : CostI))
      else acc)
    ((0 : ℕ), (⊤ : CostI))).1

/-- The visiting order built by `calc_TSP_fast`: starting from `edges=[0]`,
each `v in range(1, num_coords)` is inserted at `best_insert+1`. -/
def fastEdges (w : ℕ → ℕ → ℚ) (numCoords : ℕ) : List ℕ :=
  (List.range' 1 (numCoords - 1)).foldl
    (fun edges v => edges.insertIdx (bestInsertScan w v edges + 1) v) [0]

/-- `calc_TSP_fast` also sets `self.dest_list[0].visited = True` (line 85); no
code in the repository ever resets the flag. -/
def markHeadVisited : List Destination → List Destination
  | [] => []
  | d :: t => { d with visited := true } :: t

/-- `calc_TSP_fast`: greedy cheapest-insertion seed.  Returns the visiting
order with its total fuel, and the mutated destination list. -/
def calc_TSP_fast (w : ℕ → ℕ → ℚ) (numCoords : ℕ) (dests : List Destination) :
    (List ℕ × ℚ) × List Destination :=
  ((fastEdges w numCoords, tourFuel w numCoords (fastEdges w numCoords)),
    markHeadVisited dests)

/-- `mst_coord`: index into `dest_list`, in-tree flag `kv`, current connection
cost `dw`, and previous coordinate `pw`. -/
structure MstCoord where
  index : ℕ
  kv : Bool
  dw : CostI
  pw : Option ℕ
deriving DecidableEq, Repr

/-- Out-of-range placeholder for positional reads (never hit: every read is at
a position below the list length; `kv := true` keeps it inert in any case). -/
def dfltCoord : MstCoord := ⟨0, true, ⊤, none⟩

/-- `make_mst_coords`: one coord per index with `dw = maxsize`, then
`mst_coords[0].dw = 0`. -/
def make_mst_coords (coords : List ℕ) : List MstCoord :=
  match coords.map (fun i => MstCoord.mk i false ⊤ none) with
  | [] => []
  | c :: t => { c with dw := 0 } :: t

/-- Selection scan of `calc_MST`: scan all positions, keeping the first
non-tree position with strictly smaller `dw` than the running minimum
(initially `maxsize`); when nothing improves, the incoming `curr_v` carries
over, exactly as in the source where `curr_v` lives outside the outer loop. -/
def mstSelect (ms : List MstCoord) (cv : ℕ) : ℕ :=
  ((List.range ms.length).foldl
    (fun acc j =>
      let c := ms.getD j dfltCoord
      if ¬ c.kv ∧ c.dw < acc.1 then (c.dw, j) else acc)
    ((⊤ : CostI), cv)).2

/-- Relaxation scan of `calc_MST`: every non-tree coord whose edge fuel from
the newly added coord is strictly below its `dw` gets `dw`/`pw` updated. -/
def mstRelax (w : ℕ → ℕ → ℚ) (ms : List MstCoord) (cv : ℕ) : List MstCoord :=
  (List.range ms.length).foldl
    (fun acc j =>
      let c := acc.getD j dfltCoord
      let d := (↑(w ((acc.getD cv dfltCoord).index) c.index) : CostI)
      if ¬ c.kv ∧ d < c.dw then acc.set j { c with dw := d, pw := some cv } else acc)
    ms

/-- One outer iteration of `calc_MST`: select, mark `kv`, accumulate the
selected `dw` into `total_fuel`, then relax. -/
def mstStep (w : ℕ → ℕ → ℚ) :
    List MstCoord × ℕ × CostI → List MstCoord × ℕ × CostI
  | (ms, cv, total) =>
    let cv' := mstSelect ms cv
    let ms' := ms.set cv' { ms.getD cv' dfltCoord with kv := true }
    (mstRelax w ms' cv', cv', total + (ms.getD cv' dfltCoord).dw)

/-- `calc_MST`: total minimum-spanning-tree fuel over `coords` (Prim-style
growth; the outer loop `for c in mst_coords` runs once per coordinate and
ignores `c`). -/
def calc_MST (w : ℕ → ℕ → ℚ) (coords : List ℕ) : CostI :=
  ((mstStep w)^[coords.length] (make_mst_coords coords, 0, 0)).2.2

/-- Arm scan of `promising`: one pass computing `arm1_len` (cheapest edge from
`path[0]` to an unvisited node) and `arm2_len` (cheapest from
`path[permLength-1]`), both with strict `<` against `maxsize`. -/
def armScan (w : ℕ → ℕ → ℚ) (a b : ℕ) (unvisited : List ℕ) : CostI × CostI :=
  unvisited.foldl
    (fun acc u =>
      ((if (↑(w a u) : CostI) < acc.1 then (↑(w a u) : CostI) else acc.1),
       (if (↑(w b u) : CostI) < acc.2 then (↑(w b u) : CostI) else acc.2)))
    (⊤, ⊤)

/-- `min_dist_to_end` scan of `promising` (initial value `np.inf`). -/
def endScan (w : ℕ → ℕ → ℚ) (numCoords : ℕ) (unvisited : List ℕ) : CostI :=
  unvisited.foldl
    (fun acc u => if (↑(w u numCoords) : CostI) < acc then (↑(w u numCoords) : CostI) else acc)
    ⊤

/-- `curr_fuel` loop of `promising`: fuel of the fixed leading segment,
`for e in range(0, permLength-1)`. -/
def leadFuel (w : ℕ → ℕ → ℚ) (path : List ℕ) (permLength : ℕ) : ℚ :=
  ((List.range (permLength - 1)).map
    (fun e => w (path.getD e 0) (path.getD (e+1) 0))).sum

/-- `promising` (`tsp_solver.py` lines 149-187).  The solver always calls it
with `1 ≤ permLength ≤ len(path)`, where Python's `path[permLength-1]` is an
ordinary (non-wrapping) read. -/
def promising (w : ℕ → ℕ → ℚ) (numCoords : ℕ) (path : List ℕ)
    (permLength : ℕ) (bestLen : ℚ) : Bool :=
  let unvisited := path.drop permLength
  if unvisited.length < 5 then true
  else
    let currFuel := leadFuel w path permLength
    let mst := calc_MST w unvisited
    let arms := armScan w (path.getD 0 0) (path.getD (permLength - 1) 0) unvisited
    let minEnd := endScan w numCoords unvisited
    decide ((↑currFuel + mst + arms.2 + arms.1 + minEnd : CostI) < (↑bestLen : CostI))

/-- Transient solver state for `genPerms`.  In Python, `best_path` and
`curr_path` are the *same* list object throughout — `__init__` lines 34-37
alias them and the assignment `self.best_path = self.curr_path` at line 135
re-establishes the alias — so the observable state is the shared list plus
`best_path_length`. -/
structure SolverState where
  curr : List ℕ
  bestLen : ℚ
deriving DecidableEq, Repr

/-- The in-place two-element swap `temp = curr[a]; curr[a] = curr[b];
curr[b] = temp`. -/
def swapIdx (l : List ℕ) (a b : ℕ) : List ℕ :=
  (l.set a (l.getD b 0)).set b (l.getD a 0)

/-- `genPerms` (`tsp_solver.py` lines 120-148), with the recursion organised by
`rem = len(curr_path) - permLength`, the number of unassigned positions.
`rem = 0` is the complete-permutation case (compare cost, update best);
otherwise the promising test gates the swap loop
`for i in range(permLength, len(curr_path))`: swap positions
`permLength`/`i`, recurse, swap back. -/
def genPerms (w : ℕ → ℕ → ℚ) (numCoords : ℕ) : ℕ → SolverState → SolverState
  | 0, s =>
    let total := tourFuel w numCoords s.curr
    if s.bestLen > total then ⟨s.curr, total⟩ else s
  | rem + 1, s =>
    let pL := s.curr.length - (rem + 1)
    if ¬ promising w numCoords s.curr pL s.bestLen then s
    else
      (List.range' pL (rem + 1)).foldl
        (fun st i =>
          let st' := genPerms w numCoords rem ⟨swapIdx st.curr pL i, st.bestLen⟩
          ⟨swapIdx st'.curr pL i, st'.bestLen⟩)
        s

/-- Observable result of constructing a `tsp_solver` and running
`calc_TSP_opt`: the final `best_path` (through the aliasing this is the final
`curr_path`), `best_path_length`, and the destination list as mutated by
`calc_TSP_fast`. -/
structure SolverResult where
  best_path : List ℕ
  best_path_length : ℚ
  dest_list : List Destination
deriving DecidableEq, Repr

/-- `tsp_solver.__init__` (greedy seed) followed by `calc_TSP_opt()`
(`genPerms(1)`, i.e. `rem = len(curr_path) - 1`). -/
def calc_TSP_opt (w : ℕ → ℕ → ℚ) (numCoords : ℕ) (dests : List Destination) :
    SolverResult :=
  let fast := calc_TSP_fast w numCoords dests
  let s := genPerms w numCoords (fast.1.1.length - 1) ⟨fast.1.1, fast.1.2⟩
  ⟨s.curr, s.bestLen, fast.2⟩

/-- Failing input for the optimality claim: destinations `0..5`, end node `6`.
Every edge out of the start costs 100; the chain `1-2-3-4-5` costs 1 per edge
and every other internal edge 50; reaching the end is free except from node 1
(cost 30).  Symmetric with zero diagonal. -/
def m6 : ℕ → ℕ → ℚ := fun i j =>
  let a := min i j
  let b := max i j
  if a = b then 0
  else if a = 0 then (if b = 6 then 0 else 100)
  else if b = 6 then (if a = 1 then 30 else 0)
  else if b = a + 1 then 1
  else 50

/-! ## C3 machinery: spanning structures over a node set

`calc_MST` is compared against *cluster-rooted spanning structures*: a parent
assignment `pf` on node names (`none` meaning "attached to the already-built
tree cluster at connection cost `d v`") together with a rank function
witnessing well-foundedness.  Any Hamiltonian path over the node set induces
such a structure of equal cost, and the Prim-style loop of `calc_MST` is shown
to cost no more than any such structure. -/

/-- A cluster-rooted spanning structure: parent pointer and rank witness. -/
structure SpanStruct where
  pf : ℕ → Option ℕ
  rnk : ℕ → ℕ

/-- Validity on a node list `R`: parents stay in `R` and strictly decrease the
rank, so parent chains terminate at a cluster attachment. -/
def SpanStruct.Valid (σ : SpanStruct) (R : List ℕ) : Prop :=
  ∀ v ∈ R, ∀ p, σ.pf v = some p → p ∈ R ∧ σ.rnk p < σ.rnk v

/-- Cost contribution of one node: its parent edge, or its cluster connection
cost `d v` when attached to the cluster. -/
def structTerm (w : ℕ → ℕ → ℚ) (d : ℕ → CostI) (σ : SpanStruct) (v : ℕ) : CostI :=
  match σ.pf v with
  | none => d v
  | some p => (↑(w v p) : CostI)

/-- Total cost of a structure over the node list `R`. -/
def structCost (w : ℕ → ℕ → ℚ) (d : ℕ → CostI) (σ : SpanStruct) (R : List ℕ) : CostI :=
  (R.map (structTerm w d σ)).sum

/-- Predecessor-driven consecutive sum: if each element of `t` contributes the
edge fuel from its predecessor in `x :: t`, the total is the path fuel. -/
theorem consec_sum (w : ℕ → ℕ → ℚ) (F : ℕ → CostI) :
    ∀ (t : List ℕ) (x : ℕ), (∀ pr ∈ (x :: t).zip t, F pr.2 = (↑(w pr.1 pr.2) : CostI)) →
      (t.map F).sum = (↑(pairFuel w (x :: t)) : CostI) := by
  intro t
  induction t with
  | nil => intro x _; simp [pairFuel]
  | cons b t' ih =>
    intro x h
    have hb : F b = (↑(w x b) : CostI) := h (x, b) (by simp)
    have ht : (t'.map F).sum = (↑(pairFuel w (b :: t')) : CostI) := by
      refine ih b ?_
      intro pr hpr
      exact h pr (by simp [List.zip] at hpr ⊢; tauto)
    have : pairFuel w (x :: b :: t') = w x b + pairFuel w (b :: t') := rfl
    simp only [List.map_cons, List.sum_cons, hb, ht, this, WithTop.coe_add]

/-- Successor-driven consecutive sum: if each non-final element of `l`
contributes the edge fuel to its successor, the sum over `l.dropLast` is the
path fuel of `l`. -/
theorem consec_sum_init (w : ℕ → ℕ → ℚ) (F : ℕ → CostI) :
    ∀ (l : List ℕ), (∀ pr ∈ l.zip l.tail, F pr.1 = (↑(w pr.1 pr.2) : CostI)) →
      ((l.dropLast).map F).sum = (↑(pairFuel w l) : CostI) := by
  intro l
  induction l with
  | nil => intro _; simp [pairFuel]
  | cons x t ih =>
    intro h
    cases t with
    | nil => simp [pairFuel]
    | cons y t' =>
      have hx : F x = (↑(w x y) : CostI) := h (x, y) (by simp)
      have ht : ((y :: t').dropLast.map F).sum = (↑(pairFuel w (y :: t')) : CostI) := by
        refine ih ?_
        intro pr hpr
        exact h pr (by simp [List.zip] at hpr ⊢; tauto)
      have hdl : (x :: y :: t').dropLast = x :: (y :: t').dropLast := rfl
      have hpf : pairFuel w (x :: y :: t') = w x y + pairFuel w (y :: t') := rfl
      rw [hdl, List.map_cons, List.sum_cons, hx, ht, hpf, WithTop.coe_add]

/-- Splitting a nonempty list's mapped sum at its last element. -/
theorem map_sum_dropLast {F : ℕ → CostI} (l : List ℕ) (h : l ≠ []) :
    (l.map F).sum = ((l.dropLast).map F).sum + F (l.getLast h) := by
  conv_lhs => rw [← List.dropLast_append_getLast h]
  rw [List.map_append, List.sum_append]
  simp

/-- Parent chain from `v`, following `pf` for at most `fuel` steps. -/
def pfChain (σ : SpanStruct) : ℕ → ℕ → List ℕ
  | 0, v => [v]
  | f + 1, v =>
    match σ.pf v with
    | none => [v]
    | some p => v :: pfChain σ f p

theorem pfChain_ne_nil (σ : SpanStruct) (f v : ℕ) : pfChain σ f v ≠ [] := by
  cases f with
  | zero => simp [pfChain]
  | succ f =>
    simp only [pfChain]
    cases σ.pf v <;> simp

theorem pfChain_head (σ : SpanStruct) (f v : ℕ) : (pfChain σ f v).head? = some v := by
  cases f with
  | zero => rfl
  | succ f =>
    simp only [pfChain]
    cases σ.pf v <;> rfl

/-- Bundle of chain facts under validity: members and rank bounds, cluster
attachment at the end, parent links between consecutive elements, and strict
rank decrease along the chain. -/
theorem pfChain_spec (σ : SpanStruct) (R : List ℕ) (hσ : σ.Valid R) :
    ∀ (f : ℕ) (v : ℕ), v ∈ R → σ.rnk v ≤ f →
      (∀ z ∈ pfChain σ f v, z ∈ R ∧ σ.rnk z ≤ σ.rnk v) ∧
      σ.pf ((pfChain σ f v).getLast (pfChain_ne_nil σ f v)) = none ∧
      (∀ pr ∈ (pfChain σ f v).zip (pfChain σ f v).tail, σ.pf pr.1 = some pr.2) ∧
      List.Pairwise (fun a b => σ.rnk b < σ.rnk a) (pfChain σ f v) := by
  intro f
  induction f with
  | zero =>
    intro v hv hr
    have hnone : σ.pf v = none := by
      cases hpf : σ.pf v with
      | none => rfl
      | some p =>
        have := (hσ v hv p hpf).2
        omega
    refine ⟨?_, ?_, ?_, ?_⟩
    · intro z hz
      simp only [pfChain, List.mem_singleton] at hz
      subst hz
      exact ⟨hv, le_refl _⟩
    · simpa [pfChain] using hnone
    · intro pr hpr
      simp [pfChain] at hpr
    · simp [pfChain]
  | succ f ih =>
    intro v hv hr
    cases hpf : σ.pf v with
    | none =>
      refine ⟨?_, ?_, ?_, ?_⟩
      · intro z hz
        simp only [pfChain, hpf, List.mem_singleton] at hz
        subst hz
        exact ⟨hv, le_refl _⟩
      · simp [pfChain, hpf]
      · intro pr hpr
        simp [pfChain, hpf] at hpr
      · simp [pfChain, hpf]
    | some p =>
      obtain ⟨hpR, hpr⟩ := hσ v hv p hpf
      have hple : σ.rnk p ≤ f := by omega
      obtain ⟨ihmem, ihlast, ihlink, ihpw⟩ := ih p hpR hple
      have hchain : pfChain σ (f + 1) v = v :: pfChain σ f p := by
        simp [pfChain, hpf]
      refine ⟨?_, ?_, ?_, ?_⟩
      · intro z hz
        rw [hchain, List.mem_cons] at hz
        rcases hz with hz | hz
        · subst hz
          exact ⟨hv, le_refl _⟩
        · exact ⟨(ihmem z hz).1, le_trans (ihmem z hz).2 (le_of_lt hpr)⟩
      · have h1 : (pfChain σ (f + 1) v).getLast (pfChain_ne_nil σ (f + 1) v)
            = (pfChain σ f p).getLast (pfChain_ne_nil σ f p) := by
          simp only [hchain]
          exact List.getLast_cons (pfChain_ne_nil σ f p)
        rw [h1]
        exact ihlast
      · intro pr hmem
        rw [hchain] at hmem
        rcases hcp : pfChain σ f p with _ | ⟨h', t'⟩
        · exact absurd hcp (pfChain_ne_nil σ f p)
        · rw [hcp] at hmem
          simp only [List.tail_cons, List.zip_cons_cons, List.mem_cons] at hmem
          rcases hmem with hmem | hmem
          · have hh : h' = p := by
              have := pfChain_head σ f p
              rw [hcp] at this
              simpa using this
            rw [hmem]
            simpa [hh] using hpf
          · apply ihlink
            rw [hcp]
            cases t' with
            | nil => simp at hmem
            | cons h2 t2 => simpa using hmem
      · rw [hchain]
        refine List.Pairwise.cons ?_ ihpw
        intro z hz
        exact lt_of_le_of_lt (ihmem z hz).2 hpr

/-- Pointwise comparison of mapped sums. -/
theorem map_sum_le_map_sum {f g : ℕ → CostI} :
    ∀ (l : List ℕ), (∀ v ∈ l, f v ≤ g v) → (l.map f).sum ≤ (l.map g).sum := by
  intro l
  induction l with
  | nil => intro _; exact le_refl _
  | cons a t ih =>
    intro h
    simp only [List.map_cons, List.sum_cons]
    exact add_le_add (h a (by simp)) (ih (fun v hv => h v (by simp [hv])))

/-- Splitting a mapped sum along a `Nodup` subset `C` and the list difference. -/
theorem map_sum_split_diff {F : ℕ → CostI} :
    ∀ (C R : List ℕ), C.Nodup → (∀ z ∈ C, z ∈ R) →
      (R.map F).sum = (C.map F).sum + ((R.diff C).map F).sum := by
  intro C
  induction C with
  | nil => intro R _ _; simp
  | cons c C' ih =>
    intro R hnd hsub
    have hc : c ∈ R := hsub c (by simp)
    have hperm : List.Perm R (c :: R.erase c) := List.perm_cons_erase hc
    have h1 : (R.map F).sum = F c + ((R.erase c).map F).sum := by
      rw [List.Perm.sum_eq (hperm.map F)]
      simp
    have hsub' : ∀ z ∈ C', z ∈ R.erase c := by
      intro z hz
      have hzc : z ≠ c := by
        intro hzz
        subst hzz
        exact (List.nodup_cons.mp hnd).1 hz
      exact (List.mem_erase_of_ne hzc).mpr (hsub z (by simp [hz]))
    rw [h1, ih (R.erase c) (List.nodup_cons.mp hnd).2 hsub', List.diff_cons]
    simp only [List.map_cons, List.sum_cons]
    rw [← add_assoc]

/-- Finding a pair by its second component in a second-component-`Nodup`
pair list returns that very pair. -/
theorem find?_by_snd {L : List (ℕ × ℕ)} (hnd : (L.map Prod.snd).Nodup) :
    ∀ pr ∈ L, L.find? (fun q => q.2 == pr.2) = some pr := by
  induction L with
  | nil => intro pr hpr; simp at hpr
  | cons h t ih =>
    intro pr hpr
    rcases List.mem_cons.mp hpr with hpr | hpr
    · subst hpr
      exact List.find?_cons_of_pos _ (by simp)
    · have hne : h.2 ≠ pr.2 := by
        intro he
        have : pr.2 ∈ t.map Prod.snd := List.mem_map_of_mem Prod.snd hpr
        rw [← he] at this
        exact (List.nodup_cons.mp (by simpa using hnd)).1 this
      rw [List.find?_cons_of_neg _ (by simpa using hne)]
      exact ih (by simpa using (List.nodup_cons.mp (by simpa using hnd)).2) pr hpr

/-- Chain reversal: reattach `y` to the cluster and reverse the parent edges
along its parent chain `C`; everything else keeps its parent.  Chain nodes are
re-ranked by how far down the chain they sit; other nodes are lifted above. -/
def chainRev (σ : SpanStruct) (y : ℕ) (C : List ℕ) : SpanStruct where
  pf := fun z =>
    match (C.zip C.tail).find? (fun pr => pr.2 == z) with
    | some pr => some pr.1
    | none => if z = y then none else σ.pf z
  rnk := fun z => if z ∈ C then σ.rnk y - σ.rnk z else σ.rnk z + σ.rnk y + 1

/-- Rerooting: if `y` has the smallest cluster connection cost in `R`, any
valid structure can be rewired so that `y` attaches to the cluster without
increasing the total cost. -/
theorem reroot (w : ℕ → ℕ → ℚ) (hsym : ∀ i j, w i j = w j i) (d : ℕ → CostI)
    (R : List ℕ) (hRnd : R.Nodup) (σ : SpanStruct) (hσ : σ.Valid R)
    (y : ℕ) (hy : y ∈ R) (hmin : ∀ z ∈ R, d y ≤ d z) :
    ∃ σ' : SpanStruct, σ'.Valid R ∧ σ'.pf y = none ∧
      structCost w d σ' R ≤ structCost w d σ R := by
  classical
  set C := pfChain σ (σ.rnk y) y with hC
  obtain ⟨hmem, hlast, hlink, hpw⟩ := pfChain_spec σ R hσ (σ.rnk y) y hy (le_refl _)
  have hCne : C ≠ [] := pfChain_ne_nil σ (σ.rnk y) y
  have hChead : C.head? = some y := pfChain_head σ (σ.rnk y) y
  have hCnd : C.Nodup := by
    refine hpw.imp ?_
    intro a b hab
    intro he
    subst he
    exact lt_irrefl _ hab
  -- C = y :: C.tail
  have hCcons : C = y :: C.tail := by
    cases hCeq : C with
    | nil => exact absurd hCeq hCne
    | cons h t =>
      rw [hCeq] at hChead
      simp at hChead
      subst hChead
      simp
  have hyC : y ∈ C := by rw [hCcons]; simp
  have hsndzip : ((C.zip C.tail).map Prod.snd) = C.tail :=
    List.map_snd_zip C C.tail (by
      cases C with
      | nil => simp
      | cons h t => simp)
  have htailnd : C.tail.Nodup := by
    rw [hCcons] at hCnd
    exact (List.nodup_cons.mp hCnd).2
  set σ' := chainRev σ y C with hσ'
  -- pf' facts
  have hpf_tail : ∀ pr ∈ C.zip C.tail, σ'.pf pr.2 = some pr.1 := by
    intro pr hpr
    have := find?_by_snd (by rw [hsndzip]; exact htailnd) pr hpr
    simp only [hσ', chainRev, this]
  have hpf_y : σ'.pf y = none := by
    have hfind : (C.zip C.tail).find? (fun q => q.2 == y) = none := by
      rw [List.find?_eq_none]
      intro pr hpr
      have h2 : pr.2 ∈ C.tail := by
        rw [← hsndzip]
        exact List.mem_map_of_mem Prod.snd hpr
      have hyne : pr.2 ≠ y := by
        intro he
        rw [hCcons] at hCnd
        exact (List.nodup_cons.mp hCnd).1 (he ▸ h2)
      simpa using hyne
    simp only [hσ', chainRev, hfind]
    simp
  have hpf_out : ∀ z, z ∉ C → σ'.pf z = σ.pf z := by
    intro z hz
    have hfind : (C.zip C.tail).find? (fun q => q.2 == z) = none := by
      rw [List.find?_eq_none]
      intro pr hpr
      have h2 : pr.2 ∈ C.tail := by
        rw [← hsndzip]
        exact List.mem_map_of_mem Prod.snd hpr
      have : pr.2 ≠ z := by
        intro he
        exact hz (he ▸ List.mem_of_mem_tail h2)
      simpa using this
    have hzy : z ≠ y := fun he => hz (he ▸ hyC)
    simp only [hσ', chainRev, hfind, if_neg hzy]
  -- membership in C.tail yields a zip pair ending there
  have htail_pair : ∀ z ∈ C.tail, ∃ pr ∈ C.zip C.tail, pr.2 = z := by
    intro z hz
    rw [← hsndzip] at hz
    obtain ⟨pr, hpr, he⟩ := List.mem_map.mp hz
    exact ⟨pr, hpr, he⟩
  -- rank bound for chain members
  have hrnkC : ∀ z ∈ C, σ.rnk z ≤ σ.rnk y := fun z hz => (hmem z hz).2
  -- validity
  have hvalid : σ'.Valid R := by
    intro v hv p hp
    by_cases hvC : v ∈ C.tail
    · obtain ⟨pr, hpr, he⟩ := htail_pair v hvC
      subst he
      have hpf2 := hpf_tail pr hpr
      rw [hp] at hpf2
      have hpe : p = pr.1 := Option.some.inj hpf2
      subst hpe
      have hfst : pr.1 ∈ C := (List.of_mem_zip hpr).1
      have hsnd : pr.2 ∈ C := List.mem_of_mem_tail (List.of_mem_zip hpr).2
      have hlinkpr := hlink pr hpr
      have hfstR : pr.1 ∈ R := (hmem pr.1 hfst).1
      have hrdec : σ.rnk pr.2 < σ.rnk pr.1 := (hσ pr.1 hfstR pr.2 hlinkpr).2
      refine ⟨hfstR, ?_⟩
      have h1 := hrnkC pr.1 hfst
      have h2 := hrnkC pr.2 hsnd
      simp only [hσ', chainRev, if_pos hfst, if_pos hsnd]
      omega
    · have hvy : v ≠ y ∨ v = y := (ne_or_eq v y)
      rcases hvy with hvy | hvy
      · have hvnotC : v ∉ C := by
          intro hvC'
          rw [hCcons] at hvC'
          rcases List.mem_cons.mp hvC' with h' | h'
          · exact hvy h'
          · exact hvC h'
        have hpfv := hpf_out v hvnotC
        rw [hp] at hpfv
        obtain ⟨hpR, hplt⟩ := hσ v hv p hpfv.symm
        refine ⟨hpR, ?_⟩
        simp only [hσ', chainRev, if_neg hvnotC]
        by_cases hpC : p ∈ C
        · rw [if_pos hpC]
          omega
        · rw [if_neg hpC]
          omega
      · subst hvy
        rw [hpf_y] at hp
        exact absurd hp (by simp)
  -- cost comparison
  have hcost : structCost w d σ' R ≤ structCost w d σ R := by
    have hCsub : ∀ z ∈ C, z ∈ R := fun z hz => (hmem z hz).1
    rw [structCost, structCost, map_sum_split_diff C R hCnd hCsub,
      map_sum_split_diff C R hCnd hCsub]
    have hrest : ((R.diff C).map (structTerm w d σ')).sum
        = ((R.diff C).map (structTerm w d σ)).sum := by
      apply congrArg
      apply List.map_congr_left
      intro z hz
      have hzC : z ∉ C := ((hRnd.mem_diff_iff).mp hz).2
      simp only [structTerm, hpf_out z hzC]
    rw [hrest]
    apply add_le_add_right
    -- chain sums
    have hsum' : (C.map (structTerm w d σ')).sum
        = d y + (↑(pairFuel w C) : CostI) := by
      conv_lhs => rw [hCcons]
      rw [List.map_cons, List.sum_cons]
      have hterm_y : structTerm w d σ' y = d y := by
        simp only [structTerm, hpf_y]
      rw [hterm_y]
      have := consec_sum w (structTerm w d σ') C.tail y ?_
      · rw [this, ← hCcons]
      · intro pr hpr
        rw [← hCcons] at hpr
        have := hpf_tail pr hpr
        simp only [structTerm, this]
        rw [hsym pr.2 pr.1]
    have hsum : (C.map (structTerm w d σ)).sum
        = (↑(pairFuel w C) : CostI) + d (C.getLast hCne) := by
      rw [map_sum_dropLast C hCne]
      have hterm_last : structTerm w d σ (C.getLast hCne) = d (C.getLast hCne) := by
        simp only [structTerm, hlast]
      rw [hterm_last]
      have := consec_sum_init w (structTerm w d σ) C ?_
      · rw [this]
      · intro pr hpr
        simp only [structTerm, hlink pr hpr]
    rw [hsum', hsum, add_comm (↑(pairFuel w C) : CostI) _]
    exact add_le_add_right (hmin _ (hCsub _ (List.getLast_mem hCne))) _
  exact ⟨σ', hvalid, hpf_y, hcost⟩

/-! ## The live view of the `calc_MST` loop state -/

/-- The destination indices of the coords not yet in the tree, in list order. -/
def liveIdx (ms : List MstCoord) : List ℕ :=
  (ms.filter (fun c => !c.kv)).map MstCoord.index

/-- Current connection cost of a live destination index (`⊤` if absent). -/
def liveD (ms : List MstCoord) (v : ℕ) : CostI :=
  match (ms.filter (fun c => !c.kv)).find? (fun c => c.index == v) with
  | some c => c.dw
  | none => ⊤

/-- No two coords carry the same destination index. -/
def IndexNodup (ms : List MstCoord) : Prop := (ms.map MstCoord.index).Nodup

theorem getD_set_self : ∀ (l : List MstCoord) (i : ℕ), i < l.length →
    ∀ c, (l.set i c).getD i dfltCoord = c := by
  intro l
  induction l with
  | nil => intro i h; simp at h
  | cons a t ih =>
    intro i h c
    cases i with
    | zero => rfl
    | succ j =>
      simp only [List.set_cons_succ, List.getD_cons_succ]
      exact ih j (by simpa using h) c

theorem getD_set_other : ∀ (l : List MstCoord) {i j : ℕ}, i ≠ j →
    ∀ c, (l.set i c).getD j dfltCoord = l.getD j dfltCoord := by
  intro l
  induction l with
  | nil => intro i j _ c; simp [List.set]
  | cons a t ih =>
    intro i j hne c
    cases i with
    | zero =>
      cases j with
      | zero => exact absurd rfl hne
      | succ j' => simp [List.getD_cons_succ]
    | succ i' =>
      cases j with
      | zero => simp [List.getD_cons_zero]
      | succ j' =>
        simp only [List.set_cons_succ, List.getD_cons_succ]
        exact ih (by omega) c

theorem getD_out_of_range : ∀ (l : List MstCoord) (p : ℕ), l.length ≤ p →
    l.getD p dfltCoord = dfltCoord := by
  intro l
  induction l with
  | nil => intro p _; simp [List.getD]
  | cons a t ih =>
    intro p h
    cases p with
    | zero => simp at h
    | succ q =>
      simp only [List.getD_cons_succ]
      exact ih q (by simpa using h)

/-- Membership in the live view, positionally. -/
theorem liveIdx_mem_iff (ms : List MstCoord) (z : ℕ) :
    z ∈ liveIdx ms ↔ ∃ p, p < ms.length ∧ (ms.getD p dfltCoord).kv = false ∧
      (ms.getD p dfltCoord).index = z := by
  induction ms with
  | nil => simp [liveIdx]
  | cons c t ih =>
    by_cases hkv : c.kv
    · have h1 : liveIdx (c :: t) = liveIdx t := by
        simp [liveIdx, List.filter_cons, hkv]
      rw [h1, ih]
      constructor
      · rintro ⟨p, hp, hl, hi⟩
        exact ⟨p + 1, by simpa using hp, by simpa [List.getD_cons_succ] using hl,
          by simpa [List.getD_cons_succ] using hi⟩
      · rintro ⟨p, hp, hl, hi⟩
        cases p with
        | zero => simp [List.getD_cons_zero, hkv] at hl
        | succ q =>
          exact ⟨q, by simpa using hp, by simpa [List.getD_cons_succ] using hl,
            by simpa [List.getD_cons_succ] using hi⟩
    · have h1 : liveIdx (c :: t) = c.index :: liveIdx t := by
        simp [liveIdx, List.filter_cons, hkv]
      rw [h1]
      constructor
      · intro hz
        rcases List.mem_cons.mp hz with hz | hz
        · exact ⟨0, by simp, by simpa using hkv, by simpa using hz.symm⟩
        · obtain ⟨p, hp, hl, hi⟩ := ih.mp hz
          exact ⟨p + 1, by simpa using hp, by simpa [List.getD_cons_succ] using hl,
            by simpa [List.getD_cons_succ] using hi⟩
      · rintro ⟨p, hp, hl, hi⟩
        cases p with
        | zero =>
          simp only [List.getD_cons_zero] at hi
          simp [hi]
        | succ q =>
          exact List.mem_cons_of_mem _ (ih.mpr ⟨q, by simpa using hp,
            by simpa [List.getD_cons_succ] using hl, by simpa [List.getD_cons_succ] using hi⟩)

/-- For a live position, `liveD` at its index reads off its `dw`. -/
theorem liveD_at_pos : ∀ (ms : List MstCoord), IndexNodup ms →
    ∀ (p : ℕ), p < ms.length → (ms.getD p dfltCoord).kv = false →
      liveD ms ((ms.getD p dfltCoord).index) = (ms.getD p dfltCoord).dw := by
  intro ms
  induction ms with
  | nil => intro _ p hp; simp at hp
  | cons c t ih =>
    intro hnd p hp hl
    have hndt : IndexNodup t := (List.nodup_cons.mp hnd).2
    cases p with
    | zero =>
      simp only [List.getD_cons_zero] at hl ⊢
      simp [liveD, List.filter_cons, hl, List.find?_cons_of_pos]
    | succ q =>
      simp only [List.getD_cons_succ] at hl ⊢
      have hq : q < t.length := by simpa using hp
      have hidx : (t.getD q dfltCoord).index ∈ t.map MstCoord.index := by
        rw [List.mem_map]
        refine ⟨t.getD q dfltCoord, ?_, rfl⟩
        rw [List.getD_eq_getElem?_getD, List.getElem?_eq_getElem hq]
        exact List.getElem_mem hq
      have hne : c.index ≠ (t.getD q dfltCoord).index := by
        intro he
        exact (List.nodup_cons.mp hnd).1 (he ▸ hidx)
      by_cases hkv : c.kv
      · have h1 : liveD (c :: t) = liveD t := by
          funext v
          simp [liveD, List.filter_cons, hkv]
        rw [h1]
        exact ih hndt q hq hl
      · have h1 : liveD (c :: t) ((t.getD q dfltCoord).index)
            = liveD t ((t.getD q dfltCoord).index) := by
          simp only [liveD, List.filter_cons, hkv]
          simp only [Bool.not_false, if_pos]
          rw [List.find?_cons_of_neg _ (by simpa using hne)]
        rw [h1]
        exact ih hndt q hq hl

/-- A destination index absent from the live view has `liveD = ⊤`. -/
theorem liveD_not_mem (ms : List MstCoord) (z : ℕ) (h : z ∉ liveIdx ms) :
    liveD ms z = ⊤ := by
  have hfind : (ms.filter (fun c => !c.kv)).find? (fun c => c.index == z) = none := by
    rw [List.find?_eq_none]
    intro c hc
    have : c.index ∈ liveIdx ms := List.mem_map_of_mem MstCoord.index hc
    intro he
    exact h ((beq_iff_eq.mp he) ▸ this)
  simp [liveD, hfind]

/-- Marking a live position removes exactly its index from the live view. -/
theorem liveIdx_set_kv : ∀ (ms : List MstCoord) (p : ℕ), p < ms.length →
    (ms.getD p dfltCoord).kv = false → IndexNodup ms →
    liveIdx (ms.set p { ms.getD p dfltCoord with kv := true })
      = (liveIdx ms).erase ((ms.getD p dfltCoord).index) := by
  intro ms
  induction ms with
  | nil => intro p hp; simp at hp
  | cons c t ih =>
    intro p hp hl hnd
    cases p with
    | zero =>
      simp only [List.getD_cons_zero] at hl ⊢
      simp only [List.set_cons_zero]
      have h1 : liveIdx ({ c with kv := true } :: t) = liveIdx t := by
        simp [liveIdx, List.filter_cons]
      have h2 : liveIdx (c :: t) = c.index :: liveIdx t := by
        simp [liveIdx, List.filter_cons, hl]
      rw [h1, h2, List.erase_cons_head]
    | succ q =>
      simp only [List.getD_cons_succ] at hl ⊢
      have hq : q < t.length := by simpa using hp
      have hndt : IndexNodup t := (List.nodup_cons.mp hnd).2
      have hidx : (t.getD q dfltCoord).index ∈ t.map MstCoord.index := by
        rw [List.mem_map]
        refine ⟨t.getD q dfltCoord, ?_, rfl⟩
        rw [List.getD_eq_getElem?_getD, List.getElem?_eq_getElem hq]
        exact List.getElem_mem hq
      have hne : c.index ≠ (t.getD q dfltCoord).index := by
        intro he
        exact (List.nodup_cons.mp hnd).1 (he ▸ hidx)
      simp only [List.set_cons_succ]
      by_cases hkv : c.kv
      · have h1 : ∀ (t' : List MstCoord), liveIdx (c :: t') = liveIdx t' := by
          intro t'
          simp [liveIdx, List.filter_cons, hkv]
        rw [h1, h1, ih q hq hl hndt]
      · have h1 : ∀ (t' : List MstCoord), liveIdx (c :: t') = c.index :: liveIdx t' := by
          intro t'
          simp [liveIdx, List.filter_cons, hkv]
        rw [h1, h1, ih q hq hl hndt,
          List.erase_cons_tail (by simpa using hne)]

/-- Setting one position, positional view of the indices and `kv` flags. -/
theorem set_preserves_getD_shape (ms : List MstCoord) (p : ℕ) (c' : MstCoord)
    (hi : c'.index = (ms.getD p dfltCoord).index) :
    ∀ q, ((ms.set p c').getD q dfltCoord).index = (ms.getD q dfltCoord).index := by
  intro q
  by_cases hpq : p = q
  · subst hpq
    by_cases hp : p < ms.length
    · rw [getD_set_self ms p hp c', hi]
    · rw [List.set_eq_of_length_le (by omega)]
  · rw [getD_set_other ms hpq c']

/-- The first-strict-improvement scan: soundness and minimality.  The scan
state is `(running min, running pick)`; a pick is recorded only on strict
improvement, so after the scan the pick is live with minimal `dw` whenever any
scanned live entry is below the initial bound. -/
theorem select_scan_spec (ms : List MstCoord) :
    ∀ (js : List ℕ) (acc : CostI × ℕ),
      (acc.1 = ⊤ ∨ ((ms.getD acc.2 dfltCoord).kv = false ∧
        (ms.getD acc.2 dfltCoord).dw = acc.1)) →
      (((js.foldl (fun a j =>
          let c := ms.getD j dfltCoord
          if ¬ c.kv ∧ c.dw < a.1 then (c.dw, j) else a) acc)).1 = ⊤ ∨
        ((ms.getD ((js.foldl (fun a j =>
          let c := ms.getD j dfltCoord
          if ¬ c.kv ∧ c.dw < a.1 then (c.dw, j) else a) acc)).2 dfltCoord).kv = false ∧
         (ms.getD ((js.foldl (fun a j =>
          let c := ms.getD j dfltCoord
          if ¬ c.kv ∧ c.dw < a.1 then (c.dw, j) else a) acc)).2 dfltCoord).dw =
          ((js.foldl (fun a j =>
          let c := ms.getD j dfltCoord
          if ¬ c.kv ∧ c.dw < a.1 then (c.dw, j) else a) acc)).1)) ∧
      ((js.foldl (fun a j =>
          let c := ms.getD j dfltCoord
          if ¬ c.kv ∧ c.dw < a.1 then (c.dw, j) else a) acc)).1 ≤ acc.1 ∧
      (∀ j ∈ js, (ms.getD j dfltCoord).kv = false →
        ((js.foldl (fun a j =>
          let c := ms.getD j dfltCoord
          if ¬ c.kv ∧ c.dw < a.1 then (c.dw, j) else a) acc)).1 ≤
          (ms.getD j dfltCoord).dw) := by
  intro js
  induction js with
  | nil =>
    intro acc hacc
    refine ⟨hacc, le_refl _, ?_⟩
    intro j hj
    simp at hj
  | cons j0 t ih =>
    intro acc hacc
    simp only [List.foldl_cons]
    set c0 := ms.getD j0 dfltCoord with hc0
    by_cases hcond : ¬ c0.kv ∧ c0.dw < acc.1
    · have hstep : (if ¬ c0.kv ∧ c0.dw < acc.1 then (c0.dw, j0) else acc) = (c0.dw, j0) :=
        if_pos hcond
      rw [hstep]
      have hsound : ((c0.dw, j0) : CostI × ℕ).1 = ⊤ ∨
          ((ms.getD ((c0.dw, j0) : CostI × ℕ).2 dfltCoord).kv = false ∧
           (ms.getD ((c0.dw, j0) : CostI × ℕ).2 dfltCoord).dw = ((c0.dw, j0) : CostI × ℕ).1) := by
        right
        constructor
        · rw [← hc0]
          simpa using hcond.1
        · rw [← hc0]
      obtain ⟨s1, s2, s3⟩ := ih (c0.dw, j0) hsound
      refine ⟨s1, le_trans s2 (le_of_lt hcond.2), ?_⟩
      intro j hj hlive
      rcases List.mem_cons.mp hj with hj | hj
      · rw [hj, ← hc0]
        exact s2
      · exact s3 j hj hlive
    · have hstep : (if ¬ c0.kv ∧ c0.dw < acc.1 then (c0.dw, j0) else acc) = acc :=
        if_neg hcond
      rw [hstep]
      obtain ⟨s1, s2, s3⟩ := ih acc hacc
      refine ⟨s1, s2, ?_⟩
      intro j hj hlive
      rcases List.mem_cons.mp hj with hj | hj
      · rw [hj] at hlive ⊢
        rw [← hc0] at hlive ⊢
        rcases not_and_or.mp hcond with hc | hc
        · exact absurd (by simpa using hlive) (by simpa using hc)
        · exact le_trans s2 (le_of_not_lt hc)
      · exact s3 j hj hlive

/-- `mstSelect` picks a live position of minimal `dw` whenever some live
position has finite `dw`. -/
theorem mstSelect_spec (ms : List MstCoord) (cv : ℕ)
    (hex : ∃ j, (ms.getD j dfltCoord).kv = false ∧ (ms.getD j dfltCoord).dw < ⊤) :
    (ms.getD (mstSelect ms cv) dfltCoord).kv = false ∧
    (∀ q, (ms.getD q dfltCoord).kv = false →
      (ms.getD (mstSelect ms cv) dfltCoord).dw ≤ (ms.getD q dfltCoord).dw) := by
  obtain ⟨j, hjl, hjd⟩ := hex
  have hjlen : j < ms.length := by
    by_contra hge
    rw [getD_out_of_range ms j (by omega)] at hjl
    simp [dfltCoord] at hjl
  obtain ⟨s1, s2, s3⟩ := select_scan_spec ms (List.range ms.length) (⊤, cv) (Or.inl rfl)
  have hlt := lt_of_le_of_lt (s3 j (List.mem_range.mpr hjlen) hjl) hjd
  simp only [mstSelect]
  rcases s1 with s1 | s1
  · rw [s1] at hlt
    exact absurd hlt (lt_irrefl ⊤)
  · refine ⟨s1.1, ?_⟩
    intro q hq
    have hqlen : q < ms.length := by
      by_contra hge
      rw [getD_out_of_range ms q (by omega)] at hq
      simp [dfltCoord] at hq
    rw [s1.2]
    exact s3 q (List.mem_range.mpr hqlen) hq

/-- The relaxation fold, characterised positionally: each position in the
scanned set is strictly improved toward the new tree coord when live, and
nothing else changes.  The `cv` entry is in the tree and therefore stable. -/
theorem relax_scan_spec (w : ℕ → ℕ → ℚ) (cv : ℕ) :
    ∀ (js : List ℕ) (acc : List MstCoord), js.Nodup →
      (acc.getD cv dfltCoord).kv = true →
      ((js.foldl (fun acc j =>
          let c := acc.getD j dfltCoord
          let d := (↑(w ((acc.getD cv dfltCoord).index) c.index) : CostI)
          if ¬ c.kv ∧ d < c.dw then acc.set j { c with dw := d, pw := some cv } else acc)
        acc).length = acc.length ∧
       ∀ p, (js.foldl (fun acc j =>
          let c := acc.getD j dfltCoord
          let d := (↑(w ((acc.getD cv dfltCoord).index) c.index) : CostI)
          if ¬ c.kv ∧ d < c.dw then acc.set j { c with dw := d, pw := some cv } else acc)
        acc).getD p dfltCoord =
         (if p ∈ js ∧ (acc.getD p dfltCoord).kv = false ∧
             (↑(w ((acc.getD cv dfltCoord).index) ((acc.getD p dfltCoord).index)) : CostI)
               < (acc.getD p dfltCoord).dw
          then { acc.getD p dfltCoord with
                 dw := (↑(w ((acc.getD cv dfltCoord).index)
                   ((acc.getD p dfltCoord).index)) : CostI),
                 pw := some cv }
          else acc.getD p dfltCoord)) := by
  intro js
  induction js with
  | nil =>
    intro acc _ _
    refine ⟨rfl, ?_⟩
    intro p
    simp
  | cons j0 t ih =>
    intro acc hnd hcv
    have hndt : t.Nodup := (List.nodup_cons.mp hnd).2
    have hj0t : j0 ∉ t := (List.nodup_cons.mp hnd).1
    simp only [List.foldl_cons]
    set c0 := acc.getD j0 dfltCoord with hc0
    set d0 := (↑(w ((acc.getD cv dfltCoord).index) c0.index) : CostI) with hd0
    by_cases hcond : ¬ c0.kv ∧ d0 < c0.dw
    · have hj0cv : j0 ≠ cv := by
        intro he
        apply hcond.1
        rw [hc0, he]
        exact hcv
      have hj0len : j0 < acc.length := by
        by_contra hge
        apply hcond.1
        rw [hc0, getD_out_of_range acc j0 (by omega)]
        rfl
      set acc' := acc.set j0 { c0 with dw := d0, pw := some cv } with hacc'
      have hstep : (if ¬ c0.kv ∧ d0 < c0.dw then acc' else acc) = acc' := if_pos hcond
      rw [hstep]
      have hcv' : (acc'.getD cv dfltCoord).kv = true := by
        rw [hacc', getD_set_other acc hj0cv _]
        exact hcv
      obtain ⟨ihl, ihp⟩ := ih acc' hndt hcv'
      have hlen' : acc'.length = acc.length := by
        rw [hacc', List.length_set]
      have hgetcv : acc'.getD cv dfltCoord = acc.getD cv dfltCoord := by
        rw [hacc', getD_set_other acc hj0cv _]
      refine ⟨by rw [ihl, hlen'], ?_⟩
      intro p
      rw [ihp p]
      rw [hgetcv]
      by_cases hpj : p = j0
      · rw [hpj]
        have hgetp : acc'.getD j0 dfltCoord = { c0 with dw := d0, pw := some cv } := by
          rw [hacc']
          exact getD_set_self acc j0 hj0len _
        rw [if_neg (fun hcontra => hj0t hcontra.1)]
        rw [hgetp, ← hc0, ← hd0]
        rw [if_pos ⟨List.mem_cons_self j0 t, by simpa using hcond.1, hcond.2⟩]
      · have hgetp : acc'.getD p dfltCoord = acc.getD p dfltCoord := by
          rw [hacc', getD_set_other acc (fun he => hpj he.symm) _]
        rw [hgetp]
        have hiff : ∀ (X : Prop), (p ∈ t ∧ X) ↔ (p ∈ j0 :: t ∧ X) := by
          intro X
          constructor
          · rintro ⟨h1, hX⟩
            exact ⟨List.mem_cons_of_mem _ h1, hX⟩
          · rintro ⟨h1, hX⟩
            rcases List.mem_cons.mp h1 with h' | h'
            · exact absurd h' hpj
            · exact ⟨h', hX⟩
        exact if_congr (hiff _) rfl rfl
    · have hstep : (if ¬ c0.kv ∧ d0 < c0.dw then
          acc.set j0 { c0 with dw := d0, pw := some cv } else acc) = acc := if_neg hcond
      rw [hstep]
      obtain ⟨ihl, ihp⟩ := ih acc hndt hcv
      refine ⟨ihl, ?_⟩
      intro p
      rw [ihp p]
      by_cases hpj : p = j0
      · rw [hpj]
        rw [if_neg (fun hcontra => hj0t hcontra.1)]
        rw [if_neg (by
          intro hcontra
          refine hcond ⟨?_, ?_⟩
          · rw [hc0]
            simpa using hcontra.2.1
          · rw [hc0, hd0, hc0]
            exact hcontra.2.2)]
      · have hiff : ∀ (X : Prop), (p ∈ t ∧ X) ↔ (p ∈ j0 :: t ∧ X) := by
          intro X
          constructor
          · rintro ⟨h1, hX⟩
            exact ⟨List.mem_cons_of_mem _ h1, hX⟩
          · rintro ⟨h1, hX⟩
            rcases List.mem_cons.mp h1 with h' | h'
            · exact absurd h' hpj
            · exact ⟨h', hX⟩
        exact if_congr (hiff _) rfl rfl

/-- Positional index equality forces equal index maps. -/
theorem map_index_eq_of_getD : ∀ (l1 l2 : List MstCoord), l1.length = l2.length →
    (∀ p, p < l1.length → (l1.getD p dfltCoord).index = (l2.getD p dfltCoord).index) →
    l1.map MstCoord.index = l2.map MstCoord.index := by
  intro l1
  induction l1 with
  | nil =>
    intro l2 hlen _
    cases l2 with
    | nil => rfl
    | cons b t2 => simp at hlen
  | cons a t1 ih =>
    intro l2 hlen h
    cases l2 with
    | nil => simp at hlen
    | cons b t2 =>
      have h0 := h 0 (by simp)
      simp only [List.getD_cons_zero] at h0
      have ht : t1.map MstCoord.index = t2.map MstCoord.index := by
        refine ih t2 (by simpa using hlen) ?_
        intro p hp
        have := h (p + 1) (by simpa using hp)
        simpa [List.getD_cons_succ] using this
      simp [h0, ht]

/-- Positional `kv`/`index` equality forces equal live views. -/
theorem liveIdx_eq_of_getD : ∀ (l1 l2 : List MstCoord), l1.length = l2.length →
    (∀ p, p < l1.length → (l1.getD p dfltCoord).kv = (l2.getD p dfltCoord).kv ∧
      (l1.getD p dfltCoord).index = (l2.getD p dfltCoord).index) →
    liveIdx l1 = liveIdx l2 := by
  intro l1
  induction l1 with
  | nil =>
    intro l2 hlen _
    cases l2 with
    | nil => rfl
    | cons b t2 => simp at hlen
  | cons a t1 ih =>
    intro l2 hlen h
    cases l2 with
    | nil => simp at hlen
    | cons b t2 =>
      have h0 := h 0 (by simp)
      simp only [List.getD_cons_zero] at h0
      have ht : liveIdx t1 = liveIdx t2 := by
        refine ih t2 (by simpa using hlen) ?_
        intro p hp
        have := h (p + 1) (by simpa using hp)
        simpa [List.getD_cons_succ] using this
      simp only [liveIdx, List.filter_cons, h0.1]
      by_cases hkv : b.kv
      · simp only [hkv]
        simpa [liveIdx] using ht
      · simp only [eq_false_of_ne_true (by simpa using hkv)]
        simp only [Bool.not_false, if_pos]
        simpa [liveIdx, h0.2] using congrArg (List.cons b.index) ht

/-- The live view inherits `Nodup` from the index invariant. -/
theorem liveIdx_nodup (ms : List MstCoord) (h : IndexNodup ms) : (liveIdx ms).Nodup := by
  have hsub : (ms.filter (fun c => !c.kv)).Sublist ms := List.filter_sublist ms
  exact List.Sublist.nodup (List.Sublist.map MstCoord.index hsub) h

/-- Combined effect of one `mstStep`: the selected destination `y` is live
with minimal connection cost; the step adds `liveD ms y` to the accumulator,
removes `y` from the live view, and relaxes every remaining live cost with the
edge from `y`. -/
theorem mstStep_effect (w : ℕ → ℕ → ℚ) (ms : List MstCoord) (cv : ℕ) (total : CostI)
    (hInv : IndexNodup ms)
    (hne : ∃ v ∈ liveIdx ms, liveD ms v < ⊤) :
    ∃ y, y ∈ liveIdx ms ∧ (∀ z ∈ liveIdx ms, liveD ms y ≤ liveD ms z) ∧
      (mstStep w (ms, cv, total)).2.2 = total + liveD ms y ∧
      IndexNodup (mstStep w (ms, cv, total)).1 ∧
      liveIdx (mstStep w (ms, cv, total)).1 = (liveIdx ms).erase y ∧
      (∀ z ∈ liveIdx (mstStep w (ms, cv, total)).1,
        liveD (mstStep w (ms, cv, total)).1 z = min (liveD ms z) (↑(w y z) : CostI)) := by
  classical
  obtain ⟨v, hvmem, hvlt⟩ := hne
  obtain ⟨q0, hq0len, hq0live, hq0idx⟩ := (liveIdx_mem_iff ms v).mp hvmem
  have hq0d : liveD ms v = (ms.getD q0 dfltCoord).dw := by
    rw [← hq0idx]
    exact liveD_at_pos ms hInv q0 hq0len hq0live
  have hex : ∃ j, (ms.getD j dfltCoord).kv = false ∧ (ms.getD j dfltCoord).dw < ⊤ :=
    ⟨q0, hq0live, by rw [← hq0d]; exact hvlt⟩
  obtain ⟨hplive, hpmin⟩ := mstSelect_spec ms cv hex
  set p := mstSelect ms cv with hp
  have hplen : p < ms.length := by
    by_contra hge
    rw [getD_out_of_range ms p (by omega)] at hplive
    simp [dfltCoord] at hplive
  set y := (ms.getD p dfltCoord).index with hy
  have hymem : y ∈ liveIdx ms := (liveIdx_mem_iff ms y).mpr ⟨p, hplen, hplive, rfl⟩
  have hyd : liveD ms y = (ms.getD p dfltCoord).dw := liveD_at_pos ms hInv p hplen hplive
  have hmin : ∀ z ∈ liveIdx ms, liveD ms y ≤ liveD ms z := by
    intro z hz
    obtain ⟨q, hqlen, hqlive, hqidx⟩ := (liveIdx_mem_iff ms z).mp hz
    have : liveD ms z = (ms.getD q dfltCoord).dw := by
      rw [← hqidx]
      exact liveD_at_pos ms hInv q hqlen hqlive
    rw [this, hyd]
    exact hpmin q hqlive
  -- the marked list
  set ms' := ms.set p { ms.getD p dfltCoord with kv := true } with hms'
  have hlen' : ms'.length = ms.length := by rw [hms', List.length_set]
  have hget'_p : ms'.getD p dfltCoord = { ms.getD p dfltCoord with kv := true } := by
    rw [hms']
    exact getD_set_self ms p hplen _
  have hget'_other : ∀ q, q ≠ p → ms'.getD q dfltCoord = ms.getD q dfltCoord := by
    intro q hq
    rw [hms']
    exact getD_set_other ms (fun he => hq he.symm) _
  have hidx' : ∀ q, q < ms.length → (ms'.getD q dfltCoord).index = (ms.getD q dfltCoord).index := by
    intro q _
    by_cases hqp : q = p
    · subst hqp
      rw [hget'_p]
    · rw [hget'_other q hqp]
  have hInv' : IndexNodup ms' := by
    have : ms'.map MstCoord.index = ms.map MstCoord.index :=
      map_index_eq_of_getD ms' ms (by rw [hlen']) (by
        intro q hq
        exact hidx' q (by omega))
    unfold IndexNodup
    rw [this]
    exact hInv
  have hlive' : liveIdx ms' = (liveIdx ms).erase y :=
    liveIdx_set_kv ms p hplen hplive hInv
  -- the relaxed list
  have hcv'kv : (ms'.getD p dfltCoord).kv = true := by rw [hget'_p]
  obtain ⟨hrlen, hrget⟩ := relax_scan_spec w p (List.range ms'.length) ms'
    (List.nodup_range _) hcv'kv
  have hrelax_eq : mstRelax w ms' p = (List.range ms'.length).foldl
      (fun acc j =>
        let c := acc.getD j dfltCoord
        let d := (↑(w ((acc.getD p dfltCoord).index) c.index) : CostI)
        if ¬ c.kv ∧ d < c.dw then acc.set j { c with dw := d, pw := some p } else acc) ms' := rfl
  set ms'' := mstRelax w ms' p with hms''
  have hrget' : ∀ q, ms''.getD q dfltCoord =
      (if q ∈ List.range ms'.length ∧ (ms'.getD q dfltCoord).kv = false ∧
          (↑(w ((ms'.getD p dfltCoord).index) ((ms'.getD q dfltCoord).index)) : CostI)
            < (ms'.getD q dfltCoord).dw
       then { ms'.getD q dfltCoord with
              dw := (↑(w ((ms'.getD p dfltCoord).index)
                ((ms'.getD q dfltCoord).index)) : CostI),
              pw := some p }
       else ms'.getD q dfltCoord) := by
    intro q
    show (mstRelax w ms' p).getD q dfltCoord = _
    exact hrget q
  have hrlen' : ms''.length = ms'.length := by
    show (mstRelax w ms' p).length = ms'.length
    exact hrlen
  have hshape : ∀ q, q < ms''.length →
      (ms''.getD q dfltCoord).kv = (ms'.getD q dfltCoord).kv ∧
      (ms''.getD q dfltCoord).index = (ms'.getD q dfltCoord).index := by
    intro q _
    rw [hrget' q]
    split
    · exact ⟨rfl, rfl⟩
    · exact ⟨rfl, rfl⟩
  have hliveIdx'' : liveIdx ms'' = liveIdx ms' :=
    liveIdx_eq_of_getD ms'' ms' (by rw [hrlen']) hshape
  have hInv'' : IndexNodup ms'' := by
    have : ms''.map MstCoord.index = ms'.map MstCoord.index :=
      map_index_eq_of_getD ms'' ms' (by rw [hrlen']) (fun q hq => (hshape q hq).2)
    unfold IndexNodup
    rw [this]
    exact hInv'
  -- the step computes these components
  have hstep_eq : mstStep w (ms, cv, total) = (ms'', p, total + (ms.getD p dfltCoord).dw) := by
    simp only [mstStep, ← hp, ← hms', ← hms'']
  refine ⟨y, hymem, hmin, ?_, ?_, ?_, ?_⟩
  · rw [hstep_eq, hyd]
  · rw [hstep_eq]
    exact hInv''
  · rw [hstep_eq]
    show liveIdx ms'' = (liveIdx ms).erase y
    rw [hliveIdx'']
    exact hlive'
  · intro z hz
    rw [hstep_eq] at hz
    replace hz : z ∈ liveIdx ms'' := hz
    have hz' : z ∈ liveIdx ms' := by rw [← hliveIdx'']; exact hz
    have hzy : z ≠ y := by
      intro he
      subst he
      rw [hlive'] at hz'
      have := liveIdx_nodup ms hInv
      exact (List.Nodup.not_mem_erase this) hz'
    obtain ⟨q, hqlen, hqlive, hqidx⟩ := (liveIdx_mem_iff ms'' z).mp hz
    have hqp : q ≠ p := by
      intro he
      apply hzy
      rw [← hqidx, he]
      have h2 := (hshape p (by omega)).2
      rw [h2, hget'_p]
    have hmsq : ms'.getD q dfltCoord = ms.getD q dfltCoord := hget'_other q hqp
    have hqlive_ms : (ms.getD q dfltCoord).kv = false := by
      have h1 := (hshape q hqlen).1
      rw [← hmsq, ← h1]
      exact hqlive
    have hqlen_ms : q < ms.length := by omega
    have hidxq : (ms.getD q dfltCoord).index = z := by
      have h1 := (hshape q hqlen).2
      rw [← hmsq, ← h1]
      exact hqidx
    have hliveDz : liveD ms z = (ms.getD q dfltCoord).dw := by
      rw [← hidxq]
      exact liveD_at_pos ms hInv q hqlen_ms hqlive_ms
    have hliveDz'' : liveD ms'' z = (ms''.getD q dfltCoord).dw := by
      rw [← hqidx]
      exact liveD_at_pos ms'' hInv'' q hqlen hqlive
    have hidx'_p : (ms'.getD p dfltCoord).index = y := by
      rw [hget'_p]
    have hcond_mem : q ∈ List.range ms'.length := List.mem_range.mpr (by omega)
    have hlive_ms' : (ms'.getD q dfltCoord).kv = false := by
      rw [hmsq]
      exact hqlive_ms
    have hgoal : liveD ms'' z = min (liveD ms z) (↑(w y z) : CostI) := by
      rw [hliveDz'', hrget' q]
      by_cases himp : (↑(w ((ms'.getD p dfltCoord).index) ((ms'.getD q dfltCoord).index)) : CostI)
          < (ms'.getD q dfltCoord).dw
      · rw [if_pos ⟨hcond_mem, hlive_ms', himp⟩]
        rw [hidx'_p, hmsq, hidxq] at himp
        show (↑(w ((ms'.getD p dfltCoord).index) ((ms'.getD q dfltCoord).index)) : CostI)
            = min (liveD ms z) (↑(w y z) : CostI)
        rw [hidx'_p, hmsq, hidxq, hliveDz]
        rw [min_eq_right (le_of_lt himp)]
      · rw [if_neg (fun hcontra => himp hcontra.2.2)]
        rw [hmsq, hliveDz]
        rw [hidx'_p, hmsq, hidxq] at himp
        rw [min_eq_left (le_of_not_lt himp)]
    rw [hstep_eq]
    exact hgoal

/-- Main loop bound: iterating `mstStep` once per live node accumulates at
most the cost of any valid spanning structure over the live view.  Each step
takes the cheapest cluster connection `y`; by rerooting (`reroot`) the
structure may be assumed to attach `y` to the cluster, and contracting `y`
into the cluster turns it into a structure over the remaining nodes under the
relaxed connection costs. -/
theorem mst_iter_le (w : ℕ → ℕ → ℚ) (hsym : ∀ i j, w i j = w j i) :
    ∀ (k : ℕ) (ms : List MstCoord) (cv : ℕ) (total : CostI) (σ : SpanStruct),
      IndexNodup ms → (liveIdx ms).length = k →
      (liveIdx ms = [] ∨ ∃ v ∈ liveIdx ms, liveD ms v < ⊤) →
      σ.Valid (liveIdx ms) →
      ((mstStep w)^[k] (ms, cv, total)).2.2 ≤
        total + structCost w (liveD ms) σ (liveIdx ms) := by
  intro k
  induction k with
  | zero =>
    intro ms cv total σ _ hlen _ _
    have hnil : liveIdx ms = [] := List.eq_nil_of_length_eq_zero hlen
    rw [hnil]
    simp [structCost]
  | succ k ih =>
    intro ms cv total σ hInv hlen hfin hvalid
    have hne_list : liveIdx ms ≠ [] := by
      intro h
      rw [h] at hlen
      simp at hlen
    have hfin' : ∃ v ∈ liveIdx ms, liveD ms v < ⊤ := hfin.resolve_left hne_list
    obtain ⟨y, hymem, hymin, hstep_total, hInv'', hlive'', hrelaxD⟩ :=
      mstStep_effect w ms cv total hInv hfin'
    have hRnd : (liveIdx ms).Nodup := liveIdx_nodup ms hInv
    obtain ⟨σ₂, hσ₂v, hσ₂y, hσ₂c⟩ :=
      reroot w hsym (liveD ms) (liveIdx ms) hRnd σ hvalid y hymem hymin
    set σ₃ : SpanStruct := ⟨fun v => if σ₂.pf v = some y then none else σ₂.pf v, σ₂.rnk⟩
      with hσ₃
    set S1 := (mstStep w (ms, cv, total)).1 with hS1
    have hvalid₃ : σ₃.Valid (liveIdx S1) := by
      intro v hv q hq
      rw [hlive''] at hv
      have hvS : v ∈ liveIdx ms := List.mem_of_mem_erase hv
      simp only [hσ₃] at hq
      by_cases hvy : σ₂.pf v = some y
      · rw [if_pos hvy] at hq
        exact absurd hq (by simp)
      · rw [if_neg hvy] at hq
        obtain ⟨hqmem, hqrnk⟩ := hσ₂v v hvS q hq
        have hqy : q ≠ y := by
          intro he
          subst he
          exact hvy hq
        refine ⟨?_, hqrnk⟩
        rw [hlive'']
        exact (List.mem_erase_of_ne hqy).mpr hqmem
    -- step the iterate once
    have hiter : ((mstStep w)^[k + 1] (ms, cv, total)).2.2
        = ((mstStep w)^[k] (mstStep w (ms, cv, total))).2.2 := by
      rw [Function.iterate_succ_apply]
    have hlen'' : (liveIdx S1).length = k := by
      rw [hlive'', List.length_erase_of_mem hymem, hlen]
      omega
    have hfin'' : liveIdx S1 = [] ∨ ∃ v ∈ liveIdx S1, liveD S1 v < ⊤ := by
      by_cases hni : liveIdx S1 = []
      · exact Or.inl hni
      · right
        obtain ⟨v, hv⟩ := List.exists_mem_of_ne_nil _ hni
        refine ⟨v, hv, ?_⟩
        rw [hrelaxD v hv]
        exact lt_of_le_of_lt (min_le_right _ _) (WithTop.coe_lt_top _)
    have hihbound := ih S1 (mstStep w (ms, cv, total)).2.1 (mstStep w (ms, cv, total)).2.2
      σ₃ hInv'' hlen'' hfin'' hvalid₃
    -- translate the structure cost of σ₃ over the relaxed costs
    have hcost₃ : structCost w (liveD S1) σ₃ (liveIdx S1) + liveD ms y
        ≤ structCost w (liveD ms) σ₂ (liveIdx ms) := by
      have hperm : List.Perm (liveIdx ms) (y :: (liveIdx ms).erase y) :=
        List.perm_cons_erase hymem
      have hsplit : structCost w (liveD ms) σ₂ (liveIdx ms)
          = structTerm w (liveD ms) σ₂ y
            + ((liveIdx ms).erase y |>.map (structTerm w (liveD ms) σ₂)).sum := by
        unfold structCost
        rw [List.Perm.sum_eq (hperm.map (structTerm w (liveD ms) σ₂))]
        simp
      have hterm_y : structTerm w (liveD ms) σ₂ y = liveD ms y := by
        simp only [structTerm, hσ₂y]
      have hpt : ∀ v ∈ (liveIdx ms).erase y,
          structTerm w (liveD S1) σ₃ v ≤ structTerm w (liveD ms) σ₂ v := by
        intro v hv
        have hvS1 : v ∈ liveIdx S1 := by rw [hlive'']; exact hv
        have hd' : liveD S1 v = min (liveD ms v) (↑(w y v) : CostI) := hrelaxD v hvS1
        simp only [structTerm, hσ₃]
        by_cases hvy : σ₂.pf v = some y
        · rw [hvy, if_pos rfl]
          rw [hd']
          calc min (liveD ms v) (↑(w y v) : CostI) ≤ (↑(w y v) : CostI) := min_le_right _ _
            _ = (↑(w v y) : CostI) := by rw [hsym]
        · rw [if_neg hvy]
          cases hc : σ₂.pf v with
          | none =>
            rw [hd']
            exact min_le_left _ _
          | some q => exact le_refl _
      have hsum_le : ((liveIdx ms).erase y |>.map (structTerm w (liveD S1) σ₃)).sum
          ≤ ((liveIdx ms).erase y |>.map (structTerm w (liveD ms) σ₂)).sum :=
        map_sum_le_map_sum _ hpt
      have hc3 : structCost w (liveD S1) σ₃ (liveIdx S1)
          = ((liveIdx ms).erase y |>.map (structTerm w (liveD S1) σ₃)).sum := by
        unfold structCost
        rw [hlive'']
      rw [hc3, hsplit, hterm_y, add_comm (liveD ms y) _]
      exact add_le_add hsum_le (le_refl _)
    -- assemble
    rw [hiter]
    calc ((mstStep w)^[k] (mstStep w (ms, cv, total))).2.2
        ≤ (mstStep w (ms, cv, total)).2.2
          + structCost w (liveD S1) σ₃ (liveIdx S1) := hihbound
      _ = total + (liveD ms y + structCost w (liveD S1) σ₃ (liveIdx S1)) := by
          rw [hstep_total, add_assoc]
      _ = total + (structCost w (liveD S1) σ₃ (liveIdx S1) + liveD ms y) := by
          rw [add_comm (liveD ms y) _]
      _ ≤ total + structCost w (liveD ms) σ₂ (liveIdx ms) := add_le_add_left hcost₃ _
      _ ≤ total + structCost w (liveD ms) σ (liveIdx ms) := add_le_add_left hσ₂c _

/-! ## A Hamiltonian path induces a spanning structure of equal cost -/

/-- Successor toward the path end `r` along the segment before `r`. -/
def towardNext (r : ℕ) : List ℕ → ℕ → Option ℕ
  | [], _ => none
  | [x], v => if v = x then some r else none
  | x :: y :: t, v => if v = x then some y else towardNext r (y :: t) v

/-- Predecessor along a segment (toward its head). -/
def towardPrev : List ℕ → ℕ → Option ℕ
  | x :: y :: t, v => if v = y then some x else towardPrev (y :: t) v
  | _, _ => none

/-- Rank along the segment before `r`: distance to the segment's end. -/
def distToLast (r : ℕ) : List ℕ → ℕ → ℕ
  | [], _ => 0
  | x :: t, v => if v = x then t.length + 1 else distToLast r t v

/-- Rank along the segment after `r`: distance from the segment's head. -/
def distFromHead : List ℕ → ℕ → ℕ
  | [], _ => 0
  | x :: t, v => if v = x then 1 else distFromHead t v + 1

/-- The spanning structure of the Hamiltonian path `A ++ r :: B`, rooted at
the cluster through `r`: nodes in `A` point toward `r`, nodes in `B` point
back toward `r`, and `r` attaches to the cluster. -/
def pathStruct (A : List ℕ) (r : ℕ) (B : List ℕ) : SpanStruct where
  pf := fun v =>
    if v = r then none
    else
      match towardNext r A v with
      | some nx => some nx
      | none => towardPrev (r :: B) v
  rnk := fun v =>
    if v = r then 0
    else if v ∈ A then distToLast r A v else distFromHead B v

theorem towardNext_not_mem (r : ℕ) : ∀ (A : List ℕ) (v : ℕ), v ∉ A →
    towardNext r A v = none := by
  intro A
  induction A with
  | nil => intro v _; rfl
  | cons x t ih =>
    intro v hv
    cases t with
    | nil =>
      simp only [towardNext]
      rw [if_neg (by intro he; exact hv (by simp [he]))]
    | cons y t2 =>
      simp only [towardNext]
      rw [if_neg (by intro he; exact hv (by simp [he]))]
      exact ih v (fun hm => hv (List.mem_cons_of_mem _ hm))

theorem distToLast_pos (r : ℕ) : ∀ (A : List ℕ) (v : ℕ), v ∈ A → 1 ≤ distToLast r A v := by
  intro A
  induction A with
  | nil => intro v hv; simp at hv
  | cons x t ih =>
    intro v hv
    simp only [distToLast]
    by_cases hvx : v = x
    · rw [if_pos hvx]; omega
    · rw [if_neg hvx]
      exact ih v ((List.mem_cons.mp hv).resolve_left hvx)

theorem distFromHead_pos : ∀ (B : List ℕ) (v : ℕ), v ∈ B → 1 ≤ distFromHead B v := by
  intro B
  induction B with
  | nil => intro v hv; simp at hv
  | cons x t ih =>
    intro v hv
    simp only [distFromHead]
    by_cases hvx : v = x
    · rw [if_pos hvx]
    · rw [if_neg hvx]
      have := ih v ((List.mem_cons.mp hv).resolve_left hvx)
      omega

/-- Successor facts for the `A` side: every `v ∈ A` has a next node, which is
either in `A` with strictly smaller `distToLast`, or is `r` itself. -/
theorem towardNext_spec (r : ℕ) : ∀ (A : List ℕ), (A ++ [r]).Nodup → ∀ v ∈ A,
    ∃ nx, towardNext r A v = some nx ∧
      ((nx = r ∧ 0 < distToLast r A v) ∨
       (nx ∈ A ∧ distToLast r A nx < distToLast r A v)) := by
  intro A
  induction A with
  | nil => intro _ v hv; simp at hv
  | cons x t ih =>
    intro hnd v hv
    rw [List.cons_append] at hnd
    have hndx : x ∉ t ++ [r] := (List.nodup_cons.mp hnd).1
    have hndt : (t ++ [r]).Nodup := (List.nodup_cons.mp hnd).2
    cases t with
    | nil =>
      have hvx : v = x := by simpa using hv
      subst hvx
      refine ⟨r, ?_, Or.inl ⟨rfl, ?_⟩⟩
      · simp [towardNext]
      · exact distToLast_pos r [v] v (by simp)
    | cons y t2 =>
      by_cases hvx : v = x
      · subst hvx
        refine ⟨y, ?_, Or.inr ⟨by simp, ?_⟩⟩
        · simp [towardNext]
        · have hyx : y ≠ v := by
            intro he
            exact hndx (by simp [he])
          have hL : distToLast r (v :: y :: t2) y = t2.length + 1 := by
            simp [distToLast, hyx]
          have hR : distToLast r (v :: y :: t2) v = t2.length + 2 := by
            simp [distToLast]
          rw [hL, hR]
          omega
      · have hvt : v ∈ y :: t2 := (List.mem_cons.mp hv).resolve_left hvx
        obtain ⟨nx, hnx, hcase⟩ := ih hndt v hvt
        have hstep : towardNext r (x :: y :: t2) v = towardNext r (y :: t2) v := by
          simp only [towardNext]
          rw [if_neg hvx]
        have hdv : distToLast r (x :: y :: t2) v = distToLast r (y :: t2) v := by
          simp only [distToLast]
          rw [if_neg hvx]
        refine ⟨nx, by rw [hstep]; exact hnx, ?_⟩
        rcases hcase with ⟨he, hpos⟩ | ⟨hmem, hlt⟩
        · exact Or.inl ⟨he, by rw [hdv]; exact hpos⟩
        · have hnxx : nx ≠ x := by
            intro he
            subst he
            exact hndx (List.mem_append_left _ hmem)
          have hdnx : distToLast r (x :: y :: t2) nx = distToLast r (y :: t2) nx := by
            simp only [distToLast]
            rw [if_neg hnxx]
          exact Or.inr ⟨List.mem_cons_of_mem _ hmem, by rw [hdnx, hdv]; exact hlt⟩

/-- Predecessor facts for the `B` side. -/
theorem towardPrev_spec : ∀ (B : List ℕ) (x : ℕ), (x :: B).Nodup → ∀ v ∈ B,
    ∃ pv, towardPrev (x :: B) v = some pv ∧
      ((pv = x ∧ 0 < distFromHead B v) ∨
       (pv ∈ B ∧ distFromHead B pv < distFromHead B v)) := by
  intro B
  induction B with
  | nil => intro x _ v hv; simp at hv
  | cons b t ih =>
    intro x hnd v hv
    have hndbt : (b :: t).Nodup := (List.nodup_cons.mp hnd).2
    by_cases hvb : v = b
    · subst hvb
      refine ⟨x, ?_, Or.inl ⟨rfl, ?_⟩⟩
      · simp [towardPrev]
      · exact distFromHead_pos (v :: t) v (by simp)
    · have hvt : v ∈ t := by
        rcases List.mem_cons.mp hv with h | h
        · exact absurd h hvb
        · exact h
      obtain ⟨pv, hpv, hcase⟩ := ih b hndbt v hvt
      have hstep : towardPrev (x :: b :: t) v = towardPrev (b :: t) v := by
        simp only [towardPrev]
        rw [if_neg hvb]
      have hdv : distFromHead (b :: t) v = distFromHead t v + 1 := by
        simp only [distFromHead]
        rw [if_neg hvb]
      refine ⟨pv, by rw [hstep]; exact hpv, ?_⟩
      rcases hcase with ⟨he, hpos⟩ | ⟨hmem, hlt⟩
      · subst he
        refine Or.inr ⟨by simp, ?_⟩
        have hdb : distFromHead (pv :: t) pv = 1 := by
          simp [distFromHead]
        rw [hdb, hdv]
        have := distFromHead_pos t v hvt
        omega
      · have hpvb : pv ≠ b := by
          intro he
          subst he
          exact (List.nodup_cons.mp hndbt).1 hmem
        have hdpv : distFromHead (b :: t) pv = distFromHead t pv + 1 := by
          simp only [distFromHead]
          rw [if_neg hpvb]
        exact Or.inr ⟨List.mem_cons_of_mem _ hmem, by rw [hdpv, hdv]; omega⟩

/-- Consecutive pairs on the `A` side are `towardNext` links. -/
theorem towardNext_zip (r : ℕ) : ∀ (A : List ℕ), (A ++ [r]).Nodup →
    ∀ pr ∈ (A ++ [r]).zip ((A ++ [r]).tail), towardNext r A pr.1 = some pr.2 := by
  intro A
  induction A with
  | nil => intro _ pr hpr; simp at hpr
  | cons x t ih =>
    intro hnd pr hpr
    rw [List.cons_append] at hnd
    have hndx : x ∉ t ++ [r] := (List.nodup_cons.mp hnd).1
    have hndt : (t ++ [r]).Nodup := (List.nodup_cons.mp hnd).2
    cases t with
    | nil =>
      simp only [List.nil_append, List.cons_append, List.zip_cons_cons, List.tail_cons] at hpr
      simp only [List.zip_nil_right, List.mem_singleton] at hpr
      subst hpr
      simp [towardNext]
    | cons y t2 =>
      have hsplit : ((x :: y :: t2) ++ [r]).zip (((x :: y :: t2) ++ [r]).tail)
          = (x, y) :: ((y :: t2 ++ [r]).zip ((y :: t2 ++ [r]).tail)) := by
        simp [List.zip_cons_cons]
      rw [hsplit] at hpr
      rcases List.mem_cons.mp hpr with hpr | hpr
      · subst hpr
        simp [towardNext]
      · have hfst : pr.1 ∈ (y :: t2) ++ [r] := by
          have := (List.of_mem_zip hpr).1
          simpa using this
        have hfx : pr.1 ≠ x := by
          intro he
          rw [he] at hfst
          exact hndx hfst
        have := ih hndt pr (by simpa using hpr)
        simp only [towardNext]
        rw [if_neg hfx]
        exact this

/-- Consecutive pairs on the `B` side are `towardPrev` links. -/
theorem towardPrev_zip : ∀ (B : List ℕ) (x : ℕ), (x :: B).Nodup →
    ∀ pr ∈ (x :: B).zip B, towardPrev (x :: B) pr.2 = some pr.1 := by
  intro B
  induction B with
  | nil => intro x _ pr hpr; simp at hpr
  | cons b t ih =>
    intro x hnd pr hpr
    have hndbt : (b :: t).Nodup := (List.nodup_cons.mp hnd).2
    rw [List.zip_cons_cons] at hpr
    rcases List.mem_cons.mp hpr with hpr | hpr
    · subst hpr
      simp [towardPrev]
    · have hsnd : pr.2 ∈ t := (List.of_mem_zip hpr).2
      have hsb : pr.2 ≠ b := by
        intro he
        rw [he] at hsnd
        exact (List.nodup_cons.mp hndbt).1 hsnd
      have := ih b hndbt pr hpr
      simp only [towardPrev]
      rw [if_neg hsb]
      exact this

/-- Splitting a path's fuel at an interior node. -/
theorem pairFuel_split (w : ℕ → ℕ → ℚ) (r : ℕ) :
    ∀ (A B : List ℕ), pairFuel w (A ++ r :: B) = pairFuel w (A ++ [r]) + pairFuel w (r :: B) := by
  intro A
  induction A with
  | nil => intro B; simp [pairFuel]
  | cons x t ih =>
    intro B
    cases t with
    | nil =>
      have h1 : pairFuel w ((x :: []) ++ r :: B) = w x r + pairFuel w (r :: B) := rfl
      have h2 : pairFuel w ((x :: []) ++ [r]) = w x r + pairFuel w ([r]) := rfl
      rw [h1, h2]
      simp [pairFuel]
    | cons y t2 =>
      have h1 : pairFuel w ((x :: y :: t2) ++ r :: B)
          = w x y + pairFuel w ((y :: t2) ++ r :: B) := rfl
      have h2 : pairFuel w ((x :: y :: t2) ++ [r])
          = w x y + pairFuel w ((y :: t2) ++ [r]) := rfl
      rw [h1, h2, ih B, add_assoc]

/-- The path structure is valid over any set the path enumerates. -/
theorem pathStruct_valid (A : List ℕ) (r : ℕ) (B : List ℕ)
    (hnd : (A ++ r :: B).Nodup) (S : List ℕ) (hperm : List.Perm (A ++ r :: B) S) :
    (pathStruct A r B).Valid S := by
  obtain ⟨hAnd, hrB, hdis⟩ := List.nodup_append.mp hnd
  have hrA : r ∉ A := fun h => hdis h (by simp)
  have hrBm : r ∉ B := (List.nodup_cons.mp hrB).1
  have hABdis : ∀ a ∈ A, a ∉ B := by
    intro a ha hb
    exact hdis ha (by simp [hb])
  have hndAr : (A ++ [r]).Nodup := by
    rw [List.nodup_append]
    exact ⟨hAnd, by simp, by
      intro a ha
      simp only [List.mem_singleton]
      intro he
      exact hrA (he ▸ ha)⟩
  intro v hv q hq
  have hvp : v ∈ A ++ r :: B := (hperm.mem_iff).mpr hv
  by_cases hvr : v = r
  · subst hvr
    simp only [pathStruct, if_pos rfl] at hq
    exact absurd hq (by simp)
  · have hvAB : v ∈ A ∨ v ∈ B := by
      rcases List.mem_append.mp hvp with h | h
      · exact Or.inl h
      · rcases List.mem_cons.mp h with h | h
        · exact absurd h hvr
        · exact Or.inr h
    rcases hvAB with hvA | hvB
    · obtain ⟨nx, hnx, hcase⟩ := towardNext_spec r A hndAr v hvA
      have hpf : (pathStruct A r B).pf v = some nx := by
        simp only [pathStruct, if_neg hvr, hnx]
      rw [hpf] at hq
      have hqnx : q = nx := (Option.some.inj hq).symm
      subst hqnx
      have hrnkv : (pathStruct A r B).rnk v = distToLast r A v := by
        simp only [pathStruct, if_neg hvr, if_pos hvA]
      rcases hcase with ⟨he, hpos⟩ | ⟨hmem, hlt⟩
      · refine ⟨(hperm.mem_iff).mp (by rw [he]; simp), ?_⟩
        have h0 : (pathStruct A r B).rnk q = 0 := by
          rw [he]
          simp [pathStruct]
        rw [h0, hrnkv]
        exact hpos
      · have hqr : q ≠ r := fun he => hrA (he ▸ hmem)
        refine ⟨(hperm.mem_iff).mp (List.mem_append_left _ hmem), ?_⟩
        have h0 : (pathStruct A r B).rnk q = distToLast r A q := by
          simp only [pathStruct, if_neg hqr, if_pos hmem]
        rw [h0, hrnkv]
        exact hlt
    · have hvA : v ∉ A := fun h => hABdis v h hvB
      obtain ⟨pv, hpv, hcase⟩ := towardPrev_spec B r hrB v hvB
      have hpf : (pathStruct A r B).pf v = some pv := by
        simp only [pathStruct, if_neg hvr, towardNext_not_mem r A v hvA]
        exact hpv
      rw [hpf] at hq
      have hqpv : q = pv := (Option.some.inj hq).symm
      subst hqpv
      have hrnkv : (pathStruct A r B).rnk v = distFromHead B v := by
        simp only [pathStruct, if_neg hvr, if_neg hvA]
      rcases hcase with ⟨he, hpos⟩ | ⟨hmem, hlt⟩
      · refine ⟨(hperm.mem_iff).mp (by rw [he]; simp), ?_⟩
        have h0 : (pathStruct A r B).rnk q = 0 := by
          rw [he]
          simp [pathStruct]
        rw [h0, hrnkv]
        exact hpos
      · have hqr : q ≠ r := fun he => hrBm (he ▸ hmem)
        have hqA : q ∉ A := fun h => hABdis q h hmem
        refine ⟨(hperm.mem_iff).mp (by simp [hmem]), ?_⟩
        have h0 : (pathStruct A r B).rnk q = distFromHead B q := by
          simp only [pathStruct, if_neg hqr, if_neg hqA]
        rw [h0, hrnkv]
        exact hlt

/-- The path structure costs exactly the path's fuel (the cluster attachment
of `r` is free when `d r = 0`). -/
theorem pathStruct_cost (w : ℕ → ℕ → ℚ) (hsym : ∀ i j, w i j = w j i)
    (d : ℕ → CostI) (A : List ℕ) (r : ℕ) (B : List ℕ)
    (hnd : (A ++ r :: B).Nodup) (hdr : d r = 0)
    (S : List ℕ) (hperm : List.Perm S (A ++ r :: B)) :
    structCost w d (pathStruct A r B) S = (↑(pairFuel w (A ++ r :: B)) : CostI) := by
  obtain ⟨hAnd, hrB, hdis⟩ := List.nodup_append.mp hnd
  have hrA : r ∉ A := fun h => hdis h (by simp)
  have hABdis : ∀ a ∈ A, a ∉ B := by
    intro a ha hb
    exact hdis ha (by simp [hb])
  have hndAr : (A ++ [r]).Nodup := by
    rw [List.nodup_append]
    exact ⟨hAnd, by simp, by
      intro a ha
      simp only [List.mem_singleton]
      intro he
      exact hrA (he ▸ ha)⟩
  unfold structCost
  rw [List.Perm.sum_eq (hperm.map (structTerm w d (pathStruct A r B)))]
  rw [List.map_append, List.sum_append, List.map_cons, List.sum_cons]
  have hterm_r : structTerm w d (pathStruct A r B) r = 0 := by
    simp only [structTerm, pathStruct, if_pos rfl]
    exact hdr
  have hsumA : (A.map (structTerm w d (pathStruct A r B))).sum
      = (↑(pairFuel w (A ++ [r])) : CostI) := by
    have hfact := consec_sum_init w (structTerm w d (pathStruct A r B)) (A ++ [r]) ?_
    · rw [← hfact]
      congr 1
      rw [List.dropLast_concat]
    · intro pr hpr
      have htn := towardNext_zip r A hndAr pr hpr
      have hpr1 : pr.1 ≠ r := by
        intro he
        rw [he, towardNext_not_mem r A r hrA] at htn
        exact absurd htn (by simp)
      simp only [structTerm, pathStruct, if_neg hpr1, htn]
  have hsumB : (B.map (structTerm w d (pathStruct A r B))).sum
      = (↑(pairFuel w (r :: B)) : CostI) := by
    refine consec_sum w (structTerm w d (pathStruct A r B)) B r ?_
    intro pr hpr
    have htp := towardPrev_zip B r hrB pr hpr
    have hsnd : pr.2 ∈ B := (List.of_mem_zip hpr).2
    have hsr : pr.2 ≠ r := by
      intro he
      exact (List.nodup_cons.mp hrB).1 (he ▸ hsnd)
    have hsA : pr.2 ∉ A := fun h => hABdis pr.2 h hsnd
    simp only [structTerm, pathStruct, if_neg hsr, towardNext_not_mem r A pr.2 hsA, htp]
    rw [hsym pr.2 pr.1]
  rw [hterm_r, hsumA, hsumB, pairFuel_split w r A B, WithTop.coe_add]
  rw [zero_add]

theorem make_mst_map_index (S : List ℕ) :
    (make_mst_coords S).map MstCoord.index = S := by
  cases S with
  | nil => rfl
  | cons s t =>
    simp only [make_mst_coords, List.map_cons, List.map_map]
    have : (MstCoord.index ∘ fun i => MstCoord.mk i false ⊤ none) = id := by
      funext i
      rfl
    rw [this, List.map_id]

theorem make_mst_all_live (S : List ℕ) : ∀ c ∈ make_mst_coords S, c.kv = false := by
  cases S with
  | nil => intro c hc; simp [make_mst_coords] at hc
  | cons s t =>
    intro c hc
    simp only [make_mst_coords, List.map_cons, List.mem_cons] at hc
    rcases hc with hc | hc
    · rw [hc]
    · obtain ⟨i, _, he⟩ := List.mem_map.mp hc
      rw [← he]

theorem liveIdx_make (S : List ℕ) : liveIdx (make_mst_coords S) = S := by
  unfold liveIdx
  rw [List.filter_eq_self.mpr (by
    intro c hc
    simp [make_mst_all_live S c hc])]
  exact make_mst_map_index S

theorem liveD_make_head (s : ℕ) (t : List ℕ) : liveD (make_mst_coords (s :: t)) s = 0 := by
  unfold liveD
  rw [List.filter_eq_self.mpr (by
    intro c hc
    simp [make_mst_all_live (s :: t) c hc])]
  simp only [make_mst_coords, List.map_cons]
  rw [List.find?_cons_of_pos _ (by simp)]

/-- C3: for every non-empty `Nodup` subset of node indices and every symmetric
non-negative fuel matrix, `calc_MST` is at most the total fuel of any
Hamiltonian path over the same subset — the MST lower bound is admissible. -/
theorem calc_MST_le_hamiltonian_path (w : ℕ → ℕ → ℚ)
    (hsym : ∀ i j, w i j = w j i) (_hnn : ∀ i j, 0 ≤ w i j)
    (S : List ℕ) (hS : S ≠ []) (hnd : S.Nodup)
    (p : List ℕ) (hp : List.Perm p S) :
    calc_MST w S ≤ (↑(pairFuel w p) : CostI) := by
  obtain ⟨s, t, hSst⟩ := List.exists_cons_of_ne_nil hS
  subst hSst
  have hrp : s ∈ p := (hp.mem_iff).mpr (by simp)
  obtain ⟨A, B, hAB⟩ := List.append_of_mem hrp
  subst hAB
  have hpnd : (A ++ s :: B).Nodup := (hp.nodup_iff).mpr hnd
  set ms0 := make_mst_coords (s :: t) with hms0
  have hInv : IndexNodup ms0 := by
    unfold IndexNodup
    rw [hms0, make_mst_map_index]
    exact hnd
  have hlive0 : liveIdx ms0 = s :: t := by rw [hms0, liveIdx_make]
  have hlen0 : (liveIdx ms0).length = (s :: t).length := by rw [hlive0]
  have hfin0 : liveIdx ms0 = [] ∨ ∃ v ∈ liveIdx ms0, liveD ms0 v < ⊤ := by
    right
    refine ⟨s, by rw [hlive0]; simp, ?_⟩
    rw [hms0, liveD_make_head]
    exact WithTop.coe_lt_top 0
  have hvalid : (pathStruct A s B).Valid (liveIdx ms0) := by
    rw [hlive0]
    exact pathStruct_valid A s B hpnd (s :: t) hp
  have hbound := mst_iter_le w hsym (s :: t).length ms0 0 0 (pathStruct A s B)
    hInv hlen0 hfin0 hvalid
  have hcost : structCost w (liveD ms0) (pathStruct A s B) (liveIdx ms0)
      = (↑(pairFuel w (A ++ s :: B)) : CostI) := by
    rw [hlive0]
    refine pathStruct_cost w hsym (liveD ms0) A s B hpnd ?_ (s :: t) hp.symm
    rw [hms0, liveD_make_head]
  have hms : calc_MST w (s :: t)
      = ((mstStep w)^[(s :: t).length] (ms0, 0, 0)).2.2 := by
    rw [hms0]
    rfl
  rw [hms]
  calc ((mstStep w)^[(s :: t).length] (ms0, 0, 0)).2.2
      ≤ 0 + structCost w (liveD ms0) (pathStruct A s B) (liveIdx ms0) := hbound
    _ = (↑(pairFuel w (A ++ s :: B)) : CostI) := by rw [zero_add, hcost]

/-- Witness for C3 at a concrete instance: subset `[1,2,3,4,5]` of `m6` and
the Hamiltonian path `[3,2,1,5,4]` over it. -/
theorem calc_MST_le_hamiltonian_path_witness :
    (∀ i j, m6 i j = m6 j i) ∧ (∀ i j, 0 ≤ m6 i j) ∧
      ([1, 2, 3, 4, 5] : List ℕ) ≠ [] ∧ ([1, 2, 3, 4, 5] : List ℕ).Nodup ∧
      List.Perm [3, 2, 1, 5, 4] [1, 2, 3, 4, 5] ∧
      calc_MST m6 [1, 2, 3, 4, 5] ≤ (↑(pairFuel m6 [3, 2, 1, 5, 4]) : CostI) := by
  have hsym : ∀ i j, m6 i j = m6 j i := by
    intro i j
    unfold m6
    rw [Nat.min_comm, Nat.max_comm]
  have hnn : ∀ i j, 0 ≤ m6 i j := by
    intro i j
    simp only [m6]
    split_ifs <;> norm_num
  exact ⟨hsym, hnn, by decide, by decide, by decide,
    calc_MST_le_hamiltonian_path m6 hsym hnn [1, 2, 3, 4, 5] (by decide) (by decide)
      [3, 2, 1, 5, 4] (by decide)⟩

/-! ## C1: the branch-and-bound solver is not optimal -/

/-- C1: the claim that `calc_TSP_opt` always returns the globally optimal
visiting order (with matching `best_path_length`) fails on the code.  On the
concrete matrix `m6` the pruning estimate of `promising` adds *both* a
cheapest-edge arm back to the start (`arm1_len`) and a cheapest edge to the
end node (`min_dist_to_end`) — one connection more than any real completion
uses — so at `permLength = 1` the root branch is pruned and the solver keeps
the greedy seed of cost 134, although the valid order `[0,1,2,3,4,5]` (a
permutation of the six indices with 0 first) costs only 104. -/
theorem calc_TSP_opt_misses_optimum :
    (calc_TSP_opt m6 6 []).best_path_length = 134 ∧
    tourFuel m6 6 [0, 1, 2, 3, 4, 5] = 104 ∧
    List.Perm [0, 1, 2, 3, 4, 5] (List.range 6) ∧ (104 : ℚ) < 134 :=
  ⟨by with_unfolding_all decide, by with_unfolding_all decide, by decide, by norm_num⟩

/-! ## C5: exact search never beats its own seed upward -/

/-- Generic fold invariant: if every step is non-increasing on `bestLen`, so
is the whole fold. -/
theorem foldl_bestLen_le {f : SolverState → ℕ → SolverState}
    (hf : ∀ s i, (f s i).bestLen ≤ s.bestLen) :
    ∀ (l : List ℕ) (s : SolverState), (l.foldl f s).bestLen ≤ s.bestLen := by
  intro l
  induction l with
  | nil => intro s; exact le_refl _
  | cons a t ih => intro s; exact le_trans (ih (f s a)) (hf s a)

/-- `genPerms` never increases `best_path_length`. -/
theorem genPerms_bestLen_le (w : ℕ → ℕ → ℚ) (numCoords : ℕ) :
    ∀ (rem : ℕ) (s : SolverState), (genPerms w numCoords rem s).bestLen ≤ s.bestLen := by
  intro rem
  induction rem with
  | zero =>
    intro s
    simp only [genPerms]
    split
    · exact le_of_lt (by assumption)
    · exact le_refl _
  | succ rem ih =>
    intro s
    simp only [genPerms]
    split
    · exact le_refl _
    · refine foldl_bestLen_le ?_ _ s
      intro st i
      exact ih ⟨swapIdx st.curr (s.curr.length - (rem + 1)) i, st.bestLen⟩

/-! ## C4: the shape of the promising estimate -/

/-- The cheapest (minimum) of the values `f u` over a list of nodes, with
`maxsize` for the empty list — the "cheapest edge" of the specification. -/
def cheapest (f : ℕ → ℚ) (l : List ℕ) : CostI :=
  l.foldl (fun acc u => min acc (↑(f u) : CostI)) ⊤

/-- A strict-`<` update step is exactly a `min`. -/
theorem ite_lt_eq_min {x a : CostI} : (if x < a then x else a) = min a x := by
  rcases lt_or_le x a with h | h
  · rw [if_pos h, min_eq_right h.le]
  · rw [if_neg (not_lt.mpr h), min_eq_left h]

/-- Splitting a componentwise fold over a pair into two folds. -/
theorem foldl_prod_split {α : Type} (f g : CostI → α → CostI) :
    ∀ (l : List α) (p : CostI × CostI),
      l.foldl (fun acc u => (f acc.1 u, g acc.2 u)) p = (l.foldl f p.1, l.foldl g p.2) := by
  intro l
  induction l with
  | nil => intro p; rfl
  | cons x t ih =>
    intro p
    simp only [List.foldl_cons]
    exact ih (f p.1 x, g p.2 x)

/-- The paired arm scan of `promising` computes the two cheapest edges. -/
theorem armScan_eq (w : ℕ → ℕ → ℚ) (a b : ℕ) (l : List ℕ) :
    armScan w a b l = (cheapest (w a) l, cheapest (w b) l) := by
  unfold armScan cheapest
  simp only [ite_lt_eq_min]
  exact foldl_prod_split (fun c u => min c (↑(w a u) : CostI))
    (fun c u => min c (↑(w b u) : CostI)) l (⊤, ⊤)

/-- The `min_dist_to_end` scan of `promising` computes the cheapest edge to
the end node. -/
theorem endScan_eq (w : ℕ → ℕ → ℚ) (n : ℕ) (l : List ℕ) :
    endScan w n l = cheapest (fun u => w u n) l := by
  unfold endScan cheapest
  simp only [ite_lt_eq_min]

/-- Appending one node to a nonempty list adds one edge from the old last. -/
theorem pairFuel_append_single (w : ℕ → ℕ → ℚ) :
    ∀ (xs : List ℕ) (y : ℕ), xs ≠ [] →
      pairFuel w (xs ++ [y]) = pairFuel w xs + w (xs.getD (xs.length - 1) 0) y := by
  intro xs
  induction xs with
  | nil => intro y h; exact absurd rfl h
  | cons a t ih =>
    intro y _
    cases t with
    | nil => simp [pairFuel]
    | cons b t2 =>
      have step := ih y (by simp)
      have e1 : pairFuel w ((a :: b :: t2) ++ [y]) = w a b + pairFuel w ((b :: t2) ++ [y]) := rfl
      have e2 : pairFuel w (a :: b :: t2) = w a b + pairFuel w (b :: t2) := rfl
      have e3 : (a :: b :: t2 : List ℕ).getD ((a :: b :: t2).length - 1) 0
          = (b :: t2 : List ℕ).getD ((b :: t2).length - 1) 0 := by
        simp [List.length_cons, List.getD_cons_succ]
      rw [e1, step, e2, e3, add_assoc]

/-- The `curr_fuel` loop of `promising` computes the fuel of the fixed leading
segment `path[0..permLength-1]`. -/
theorem leadFuel_eq_pairFuel_take (w : ℕ → ℕ → ℚ) :
    ∀ (pL : ℕ) (path : List ℕ), pL ≤ path.length →
      leadFuel w path pL = pairFuel w (path.take pL) := by
  intro pL
  induction pL with
  | zero => intro path _; simp [leadFuel, pairFuel]
  | succ k ih =>
    intro path h
    cases k with
    | zero =>
      cases path with
      | nil => simp at h
      | cons x t => simp [leadFuel, pairFuel]
    | succ k2 =>
      have hk : k2 + 1 ≤ path.length := by omega
      have hlt : k2 + 1 < path.length := by omega
      have hl : leadFuel w path (k2 + 2)
          = leadFuel w path (k2 + 1) + w (path.getD k2 0) (path.getD (k2 + 1) 0) := by
        simp [leadFuel, List.range_succ]
      have htake : path.take (k2 + 2) = path.take (k2 + 1) ++ [path.getD (k2 + 1) 0] := by
        rw [List.getD_eq_getElem?_getD, ← List.take_concat_get _ _ hlt]
        simp [List.getElem?_eq_getElem hlt]
      have hne : path.take (k2 + 1) ≠ [] := by
        intro hc
        rcases List.take_eq_nil_iff.mp hc with hc' | hc'
        · exact absurd hc' (by omega)
        · rw [hc'] at h; simp at h
      have hlen : (path.take (k2 + 1)).length = k2 + 1 := by
        rw [List.length_take]
        exact Nat.min_eq_left (by omega)
      have hgd : (path.take (k2 + 1)).getD ((path.take (k2 + 1)).length - 1) 0
          = path.getD k2 0 := by
        rw [hlen]
        simp only [Nat.add_sub_cancel]
        rw [List.getD_eq_getElem?_getD, List.getD_eq_getElem?_getD, List.getElem?_take]
        simp
      rw [hl, ih path hk, htake, pairFuel_append_single w _ _ hne, hgd]

/-- C4: `promising(path, permLength)` returns `True` exactly when fewer than 5
nodes remain unassigned, or when the lower-bound estimate — fuel of the fixed
leading segment, plus the MST fuel of the unassigned suffix, plus the cheapest
edge from `path[0]` to an unassigned node, plus the cheapest edge from the
segment's last node `path[permLength-1]`, plus the cheapest edge from an
unassigned node to the end node — is strictly below the incumbent best length,
so a branch is abandoned exactly when the estimate fails to beat the best
known cost. -/
theorem promising_eq_estimate (w : ℕ → ℕ → ℚ) (numCoords : ℕ) (path : List ℕ)
    (pL : ℕ) (bestLen : ℚ) (_h1 : 1 ≤ pL) (h2 : pL ≤ path.length) :
    (promising w numCoords path pL bestLen = true) ↔
      ((path.drop pL).length < 5 ∨
        (↑(pairFuel w (path.take pL)) + calc_MST w (path.drop pL)
            + cheapest (w (path.getD 0 0)) (path.drop pL)
            + cheapest (w (path.getD (pL - 1) 0)) (path.drop pL)
            + cheapest (fun u => w u numCoords) (path.drop pL) : CostI)
          < (↑bestLen : CostI)) := by
  simp only [promising]
  by_cases h5 : (path.drop pL).length < 5
  · rw [if_pos h5]
    exact ⟨fun _ => Or.inl h5, fun _ => rfl⟩
  · rw [if_neg h5]
    rw [armScan_eq, endScan_eq, leadFuel_eq_pairFuel_take w pL path h2]
    have hcomm :
        (↑(pairFuel w (path.take pL)) + calc_MST w (path.drop pL)
            + cheapest (w (path.getD (pL - 1) 0)) (path.drop pL)
            + cheapest (w (path.getD 0 0)) (path.drop pL)
            + cheapest (fun u => w u numCoords) (path.drop pL) : CostI)
          = (↑(pairFuel w (path.take pL)) + calc_MST w (path.drop pL)
            + cheapest (w (path.getD 0 0)) (path.drop pL)
            + cheapest (w (path.getD (pL - 1) 0)) (path.drop pL)
            + cheapest (fun u => w u numCoords) (path.drop pL) : CostI) := by
      rw [add_right_comm (↑(pairFuel w (path.take pL)) + calc_MST w (path.drop pL))]
    simp only [decide_eq_true_eq, hcomm]
    exact (or_iff_right h5).symm

/-- Witness for C4 at a concrete instance: `m6`, the greedy seed path of the
failing input, `permLength = 1`, incumbent 134. -/
theorem promising_eq_estimate_witness :
    1 ≤ 1 ∧ 1 ≤ ([0, 5, 4, 3, 2, 1] : List ℕ).length ∧
      ((promising m6 6 [0, 5, 4, 3, 2, 1] 1 134 = true) ↔
        ((([0, 5, 4, 3, 2, 1] : List ℕ).drop 1).length < 5 ∨
          (↑(pairFuel m6 (([0, 5, 4, 3, 2, 1] : List ℕ).take 1))
              + calc_MST m6 (([0, 5, 4, 3, 2, 1] : List ℕ).drop 1)
              + cheapest (m6 (([0, 5, 4, 3, 2, 1] : List ℕ).getD 0 0))
                  (([0, 5, 4, 3, 2, 1] : List ℕ).drop 1)
              + cheapest (m6 (([0, 5, 4, 3, 2, 1] : List ℕ).getD (1 - 1) 0))
                  (([0, 5, 4, 3, 2, 1] : List ℕ).drop 1)
              + cheapest (fun u => m6 u 6) (([0, 5, 4, 3, 2, 1] : List ℕ).drop 1) : CostI)
            < (↑(134 : ℚ) : CostI))) :=
  ⟨by decide, by decide,
    promising_eq_estimate m6 6 [0, 5, 4, 3, 2, 1] 1 134 (by decide) (by decide)⟩

/-- C5: after `calc_TSP_opt`, `best_path_length` is at most the total fuel
cost returned by the greedy cheapest-insertion constructor `calc_TSP_fast` on
the same input (the search starts from the greedy cost and only ever lowers
it). -/
theorem calc_TSP_opt_le_calc_TSP_fast (w : ℕ → ℕ → ℚ) (numCoords : ℕ)
    (dests : List Destination) (_h : 1 ≤ numCoords) :
    (calc_TSP_opt w numCoords dests).best_path_length ≤
      (calc_TSP_fast w numCoords dests).1.2 :=
  genPerms_bestLen_le w numCoords _ _

/-- Witness for C5 at the concrete instance `m6`, six destinations. -/
theorem calc_TSP_opt_le_calc_TSP_fast_witness :
    1 ≤ 6 ∧
      (calc_TSP_opt m6 6 []).best_path_length ≤ (calc_TSP_fast m6 6 []).1.2 :=
  ⟨by decide, calc_TSP_opt_le_calc_TSP_fast m6 6 [] (by decide)⟩

/-! ## `mission_planner.py`: the Adjacency Matrix Builder

The mutable `(len(destinations)+1) × (len(destinations)+1)` Python matrix of
`waypoint_info` objects (initialised to `None`) is modelled as a cell map
`ℕ → ℕ → Option waypoint_info` updated functionally, together with the
destination count.  The geodesic collaborator `geod.Inverse(..)['s12']`
(meters) is the parameter `gdist`. -/

/-- `waypoint_info` (mission_planner.py): distance (nm), time (h), fuel. -/
structure waypoint_info where
  distance : ℚ
  time : ℚ
  fuel_burned : ℚ
deriving DecidableEq, Repr

/-- Placeholder destination for positional reads (never hit in range). -/
def dfltDest : Destination := ⟨⟨0, 0⟩, ArrTime.nowFn, 0, false⟩

/-- One mutable-matrix cell write `matrix[i][j] = wpi`. -/
def setEntry (m : ℕ → ℕ → Option waypoint_info) (i j : ℕ) (v : waypoint_info) :
    ℕ → ℕ → Option waypoint_info :=
  fun p q => if p = i ∧ q = j then some v else m p q

/-- The adjacency matrix: destination count `n` (the table is `(n+1)×(n+1)`)
plus the cell map. -/
structure AdjMat where
  n : ℕ
  entry : ℕ → ℕ → Option waypoint_info

/-- The symmetric destination-destination cell value for `i ≤ j`, `i ≠ j`. -/
def pairInfo (gdist : Waypoint → Waypoint → ℚ) (speed : ℚ)
    (dests : List Destination) (i j : ℕ) : waypoint_info :=
  let distance := gdist (dests.getD i dfltDest).waypoint (dests.getD j dfltDest).waypoint / 1852
  let time := distance / speed
  ⟨distance, time, calc_fuel_burned speed time⟩

/-- The destination-to-end cell value: note `fuel_burned = 0` (line 148 of
the source passes a literal `0` instead of calling the fuel model). -/
def endInfo (gdist : Waypoint → Waypoint → ℚ) (speed : ℚ)
    (dests : List Destination) (endW : Waypoint) (i : ℕ) : waypoint_info :=
  let distance := gdist (dests.getD i dfltDest).waypoint endW / 1852
  let time := distance / speed
  ⟨distance, time, 0⟩

/-- Inner fill loop at row `i`: `for j in range(len(destinations)-1,-1,-1)`
with the `break` at `j < i`, i.e. `j` runs down from `n-1` to `i`; the
diagonal gets the zero cell, every other pair is written symmetrically. -/
def fillRow (gdist : Waypoint → Waypoint → ℚ) (speed : ℚ) (dests : List Destination)
    (i : ℕ) (m : ℕ → ℕ → Option waypoint_info) : ℕ → ℕ → Option waypoint_info :=
  ((List.range' i (dests.length - i)).reverse).foldl
    (fun m' j =>
      if i = j then setEntry m' i j ⟨0, 0, 0⟩
      else setEntry (setEntry m' i j (pairInfo gdist speed dests i j)) j i
        (pairInfo gdist speed dests i j))
    m

/-- `waypoint_list_to_matrix` (mission_planner.py lines 111-151). -/
def waypoint_list_to_matrix (gdist : Waypoint → Waypoint → ℚ) (speed : ℚ)
    (dests : List Destination) (endW : Waypoint) : AdjMat :=
  let n := dests.length
  let m1 := (List.range n).foldl (fun m i => fillRow gdist speed dests i m)
    (fun _ _ => none)
  let m2 := (List.range n).foldl
    (fun m i => setEntry (setEntry m i n (endInfo gdist speed dests endW i)) n i
      (endInfo gdist speed dests endW i))
    m1
  ⟨n, m2⟩

/-! ## C9: empty destination list -/

/-- C9 counterexample: on an empty destination list the Adjacency Matrix
Builder does not fail — it returns a degenerate 1×1 matrix whose single cell
is still the `None` placeholder. -/
theorem empty_dest_list_matrix_value :
    (waypoint_list_to_matrix (fun _ _ => 1852) 1 [] ⟨0, 0⟩).n = 0 ∧
    (waypoint_list_to_matrix (fun _ _ => 1852) 1 [] ⟨0, 0⟩).entry 0 0 = none :=
  ⟨rfl, rfl⟩

/-- C9 amended: for every distance collaborator, speed and end waypoint, the
builder applied to the empty destination list returns (rather than failing)
the degenerate matrix with destination count 0 and every cell unfilled. -/
theorem empty_dest_list_matrix (gdist : Waypoint → Waypoint → ℚ) (speed : ℚ)
    (endW : Waypoint) :
    (waypoint_list_to_matrix gdist speed [] endW).n = 0 ∧
    ∀ p q, (waypoint_list_to_matrix gdist speed [] endW).entry p q = none :=
  ⟨rfl, fun _ _ => rfl⟩

/-! ## Characterising the builder's cells -/

theorem setEntry_same (m : ℕ → ℕ → Option waypoint_info) (i j : ℕ) (v : waypoint_info) :
    setEntry m i j v i j = some v := by
  simp [setEntry]

theorem setEntry_other (m : ℕ → ℕ → Option waypoint_info) {i j p q : ℕ}
    (v : waypoint_info) (h : ¬ (p = i ∧ q = j)) : setEntry m i j v p q = m p q := by
  simp [setEntry, h]

set_option maxHeartbeats 1600000 in
theorem fillRow_fold_spec (gdist : Waypoint → Waypoint → ℚ) (speed : ℚ)
    (dests : List Destination) (i : ℕ) :
    ∀ (L : List ℕ) (m : ℕ → ℕ → Option waypoint_info) (p q : ℕ),
    (L.foldl
      (fun m' j =>
        if i = j then setEntry m' i j ⟨0, 0, 0⟩
        else setEntry (setEntry m' i j (pairInfo gdist speed dests i j)) j i
          (pairInfo gdist speed dests i j))
      m) p q =
    if p = i ∧ q ∈ L then
      (if q = i then some ⟨0, 0, 0⟩ else some (pairInfo gdist speed dests i q))
    else if q = i ∧ p ∈ L then
      (if p = i then some ⟨0, 0, 0⟩ else some (pairInfo gdist speed dests i p))
    else m p q := by
  intro L
  induction L with
  | nil => intro m p q; simp
  | cons j T ih =>
    intro m p q
    rw [List.foldl_cons, ih]
    by_cases hpi : p = i <;> by_cases hqi : q = i <;> by_cases hpj : p = j <;>
      by_cases hqj : q = j <;> by_cases hij : i = j <;> by_cases hqT : q ∈ T <;>
      by_cases hpT : p ∈ T <;>
      simp_all [setEntry]

theorem fillRow_spec (gdist : Waypoint → Waypoint → ℚ) (speed : ℚ)
    (dests : List Destination) (i : ℕ) (m : ℕ → ℕ → Option waypoint_info) (p q : ℕ) :
    fillRow gdist speed dests i m p q =
    if p = i ∧ i ≤ q ∧ q < dests.length then
      (if q = i then some ⟨0, 0, 0⟩ else some (pairInfo gdist speed dests i q))
    else if q = i ∧ i ≤ p ∧ p < dests.length then
      (if p = i then some ⟨0, 0, 0⟩ else some (pairInfo gdist speed dests i p))
    else m p q := by
  have hmem : ∀ z : ℕ, (z ∈ (List.range' i (dests.length - i)).reverse) ↔
      (i ≤ z ∧ z < dests.length) := by
    intro z
    rw [List.mem_reverse, List.mem_range'_1]
    omega
  rw [fillRow, fillRow_fold_spec]
  by_cases h1 : p = i ∧ i ≤ q ∧ q < dests.length
  · rw [if_pos ⟨h1.1, (hmem q).mpr h1.2⟩, if_pos h1]
  · have h1' : ¬ (p = i ∧ q ∈ (List.range' i (dests.length - i)).reverse) := by
      rintro ⟨hp, hq⟩; exact h1 ⟨hp, (hmem q).mp hq⟩
    rw [if_neg h1', if_neg h1]
    by_cases h2 : q = i ∧ i ≤ p ∧ p < dests.length
    · rw [if_pos ⟨h2.1, (hmem p).mpr h2.2⟩, if_pos h2]
    · have h2' : ¬ (q = i ∧ p ∈ (List.range' i (dests.length - i)).reverse) := by
        rintro ⟨hq, hp⟩; exact h2 ⟨hq, (hmem p).mp hp⟩
      rw [if_neg h2', if_neg h2]

theorem rows_fold_spec (gdist : Waypoint → Waypoint → ℚ) (speed : ℚ)
    (dests : List Destination) :
    ∀ (k : ℕ), k ≤ dests.length → ∀ (p q : ℕ),
    ((List.range k).foldl (fun m i => fillRow gdist speed dests i m)
      (fun _ _ => none)) p q =
    if p < dests.length ∧ q < dests.length ∧ min p q < k then
      (if p = q then some ⟨0, 0, 0⟩
       else some (pairInfo gdist speed dests (min p q) (max p q)))
    else none := by
  intro k
  induction k with
  | zero => intro _ p q; simp
  | succ k ih =>
    intro hk p q
    rw [List.range_succ, List.foldl_append, List.foldl_cons, List.foldl_nil,
      fillRow_spec]
    by_cases h1 : p = k ∧ k ≤ q ∧ q < dests.length
    · rw [if_pos h1]
      have hcond : p < dests.length ∧ q < dests.length ∧ min p q < k + 1 := by omega
      rw [if_pos hcond]
      by_cases hqk : q = k
      · rw [if_pos hqk, if_pos (by omega : p = q)]
      · rw [if_neg hqk, if_neg (by omega : ¬ p = q)]
        have hmin : min p q = k := by omega
        have hmax : max p q = q := by omega
        rw [hmin, hmax]
    · rw [if_neg h1]
      by_cases h2 : q = k ∧ k ≤ p ∧ p < dests.length
      · rw [if_pos h2]
        have hcond : p < dests.length ∧ q < dests.length ∧ min p q < k + 1 := by omega
        rw [if_pos hcond]
        have hpk : ¬ p = k := by
          intro hp; exact h1 ⟨hp, by omega⟩
        rw [if_neg hpk, if_neg (by omega : ¬ p = q)]
        have hmin : min p q = k := by omega
        have hmax : max p q = p := by omega
        rw [hmin, hmax]
      · rw [if_neg h2, ih (by omega)]
        by_cases h3 : p < dests.length ∧ q < dests.length ∧ min p q < k
        · rw [if_pos h3, if_pos (by omega : p < dests.length ∧ q < dests.length ∧
            min p q < k + 1)]
        · rw [if_neg h3]
          have h4 : ¬ (p < dests.length ∧ q < dests.length ∧ min p q < k + 1) := by
            rintro ⟨hp, hq, hmin⟩
            have hne : ¬ min p q = k := by
              intro he
              by_cases hpq : p ≤ q
              · exact h1 ⟨by omega, by omega, hq⟩
              · exact h2 ⟨by omega, by omega, hp⟩
            exact h3 ⟨hp, hq, by omega⟩
          rw [if_neg h4]

theorem end_fold_spec (gdist : Waypoint → Waypoint → ℚ) (speed : ℚ)
    (dests : List Destination) (endW : Waypoint) :
    ∀ (k : ℕ), k ≤ dests.length → ∀ (m : ℕ → ℕ → Option waypoint_info) (p q : ℕ),
    ((List.range k).foldl
      (fun m i => setEntry (setEntry m i dests.length
          (endInfo gdist speed dests endW i)) dests.length i
          (endInfo gdist speed dests endW i)) m) p q =
    if p < k ∧ q = dests.length then some (endInfo gdist speed dests endW p)
    else if p = dests.length ∧ q < k then some (endInfo gdist speed dests endW q)
    else m p q := by
  intro k
  induction k with
  | zero => intro _ m p q; simp
  | succ k ih =>
    intro hk m p q
    rw [List.range_succ, List.foldl_append, List.foldl_cons, List.foldl_nil]
    simp only [setEntry]
    rw [ih (by omega)]
    by_cases hA : p = dests.length ∧ q = k
    · rw [if_pos hA]
      have h1' : ¬ (p < k + 1 ∧ q = dests.length) := by omega
      rw [if_neg h1', if_pos (by omega : p = dests.length ∧ q < k + 1), hA.2]
    · rw [if_neg hA]
      by_cases hB : p = k ∧ q = dests.length
      · rw [if_pos hB, if_pos (by omega : p < k + 1 ∧ q = dests.length), hB.1]
      · rw [if_neg hB]
        by_cases h1 : p < k ∧ q = dests.length
        · rw [if_pos h1, if_pos (by omega : p < k + 1 ∧ q = dests.length)]
        · rw [if_neg h1]
          have h1' : ¬ (p < k + 1 ∧ q = dests.length) := by omega
          rw [if_neg h1']
          by_cases h2 : p = dests.length ∧ q < k
          · rw [if_pos h2, if_pos (by omega : p = dests.length ∧ q < k + 1)]
          · rw [if_neg h2, if_neg (by omega : ¬ (p = dests.length ∧ q < k + 1))]

theorem adjmat_entry (gdist : Waypoint → Waypoint → ℚ) (speed : ℚ)
    (dests : List Destination) (endW : Waypoint) (p q : ℕ) :
    (waypoint_list_to_matrix gdist speed dests endW).entry p q =
    (if p < dests.length ∧ q = dests.length then
      some (endInfo gdist speed dests endW p)
     else if p = dests.length ∧ q < dests.length then
      some (endInfo gdist speed dests endW q)
     else if p < dests.length ∧ q < dests.length then
      (if p = q then some ⟨0, 0, 0⟩
       else some (pairInfo gdist speed dests (min p q) (max p q)))
     else none) := by
  rw [show (waypoint_list_to_matrix gdist speed dests endW).entry =
      ((List.range dests.length).foldl
        (fun m i => setEntry (setEntry m i dests.length
            (endInfo gdist speed dests endW i)) dests.length i
            (endInfo gdist speed dests endW i))
        ((List.range dests.length).foldl (fun m i => fillRow gdist speed dests i m)
          (fun _ _ => none))) from rfl]
  rw [end_fold_spec gdist speed dests endW dests.length le_rfl,
    rows_fold_spec gdist speed dests dests.length le_rfl]
  exact if_congr Iff.rfl rfl (if_congr Iff.rfl rfl (if_congr (by omega) rfl rfl))

/-! ## C6: the per-edge cost model -/

/-- C6 counterexample: one destination 1852 m from everything, unit speed.
The destination-to-end cell is stored with `fuel_burned = 0`, although the
vessel fuel model at that speed and time gives `0.05 ≠ 0`: the end-edge cells
never invoke the fuel model. -/
theorem end_edge_fuel_not_model :
    (waypoint_list_to_matrix (fun _ _ => 1852) 1 [dfltDest] ⟨0, 0⟩).entry 0 1 =
      some ⟨1, 1, 0⟩ ∧
    calc_fuel_burned 1 1 = 1 / 20 ∧ ((1 : ℚ) / 20) ≠ 0 := by
  refine ⟨by with_unfolding_all decide, ?_, by norm_num⟩
  rw [calc_fuel_burned]; norm_num

/-- C6 (amended): destination-destination off-diagonal entries do follow the
cost model — travel time = distance / speed and fuel = 0.05 · speed³ · time
via `calc_fuel_burned` — but the destination-to-end entries, while their time
is distance / speed, store a literal `fuel_burned = 0` instead of invoking
the fuel model. -/
theorem offdiag_entry_costs (gdist : Waypoint → Waypoint → ℚ) (speed : ℚ)
    (dests : List Destination) (endW : Waypoint) (i j : ℕ)
    (hi : i < dests.length) (hj : j < dests.length) (hij : i ≠ j) :
    (∃ wd : waypoint_info,
      (waypoint_list_to_matrix gdist speed dests endW).entry i j = some wd ∧
      wd.time = wd.distance / speed ∧
      wd.fuel_burned = calc_fuel_burned speed wd.time) ∧
    (∃ we : waypoint_info,
      (waypoint_list_to_matrix gdist speed dests endW).entry i dests.length = some we ∧
      we.time = we.distance / speed ∧
      we.fuel_burned = 0) := by
  constructor
  · refine ⟨pairInfo gdist speed dests (min i j) (max i j), ?_, rfl, rfl⟩
    rw [adjmat_entry, if_neg (by omega : ¬ (i < dests.length ∧ j = dests.length)),
      if_neg (by omega : ¬ (i = dests.length ∧ j < dests.length)),
      if_pos ⟨hi, hj⟩, if_neg hij]
  · refine ⟨endInfo gdist speed dests endW i, ?_, rfl, rfl⟩
    rw [adjmat_entry, if_pos ⟨hi, rfl⟩]

theorem offdiag_entry_costs_witness :
    ((0 : ℕ) < ([dfltDest, dfltDest] : List Destination).length ∧
     (1 : ℕ) < ([dfltDest, dfltDest] : List Destination).length ∧
     (0 : ℕ) ≠ 1) ∧
    ((∃ wd : waypoint_info,
      (waypoint_list_to_matrix (fun _ _ => 1852) 1 [dfltDest, dfltDest] ⟨0, 0⟩).entry 0 1 =
        some wd ∧
      wd.time = wd.distance / 1 ∧
      wd.fuel_burned = calc_fuel_burned 1 wd.time) ∧
    (∃ we : waypoint_info,
      (waypoint_list_to_matrix (fun _ _ => 1852) 1 [dfltDest, dfltDest] ⟨0, 0⟩).entry 0
          ([dfltDest, dfltDest] : List Destination).length = some we ∧
      we.time = we.distance / 1 ∧
      we.fuel_burned = 0)) :=
  ⟨⟨by decide, by decide, by decide⟩,
    offdiag_entry_costs (fun _ _ => 1852) 1 [dfltDest, dfltDest] ⟨0, 0⟩ 0 1
      (by decide) (by decide) (by decide)⟩

/-! ## C8: unguarded vessel speed -/

/-- C8: a non-positive vessel speed is not rejected anywhere — the travel-time
computation `time = distance / speed` is unguarded, and with speed −1 the
builder silently stores the destination-destination cell for a 1852 m leg
with travel time −1 (negative) and fuel 0.05·(−1)³·(−1) = 1/20, which then
flows to the solver unchecked. -/
theorem negative_speed_propagates :
    (waypoint_list_to_matrix (fun _ _ => 1852) (-1) [dfltDest, dfltDest] ⟨0, 0⟩).entry 0 1 =
      some (pairInfo (fun _ _ => 1852) (-1) [dfltDest, dfltDest] 0 1) ∧
    (pairInfo (fun _ _ => 1852) (-1) [dfltDest, dfltDest] 0 1).time = -1 ∧
    (pairInfo (fun _ _ => 1852) (-1) [dfltDest, dfltDest] 0 1).time < 0 ∧
    (pairInfo (fun _ _ => 1852) (-1) [dfltDest, dfltDest] 0 1).fuel_burned = 1 / 20 := by
  refine ⟨?_, ?_, ?_, ?_⟩ <;> with_unfolding_all decide

/-! ## `mission_planner.py`: constructor and `plan_mission`

`missionPlanner.__init__` deletes the last destination of the vessel's
mission (line 37).  `plan_mission` inserts the start destination at index 0,
solves the full set, and on infeasibility pools all proper subsets
(`itertools.combinations` in lexicographic order, sizes `N-2` down to `1`,
each with index 0 prepended), sorts them by total priority descending
(Python's stable sort), and returns the first feasible candidate, falling
back to `Mission([Destination(start, datetime.now, 0)])`. -/

/-- Line 37 of `mission_planner.py`:
`del self.mission.destinations[len(self.mission.destinations)-1]`. -/
def plannerInitDests (ds : List Destination) : List Destination := ds.dropLast

/-- `itertools.combinations` in its lexicographic emission order. -/
def combosLex : ℕ → List ℕ → List (List ℕ)
  | 0, _ => [[]]
  | _ + 1, [] => []
  | k + 1, a :: as => (combosLex k as).map (fun c => a :: c) ++ combosLex (k + 1) as

/-- The `possible_missions` pool of `plan_mission` (lines 79-93): sizes
`x = N-2` down to `1`, each combination of `[1..N-1]` with index 0 put first
and paired with its total priority. -/
def candidatePool (dests : List Destination) : List (List ℕ × ℕ) :=
  (((List.range' 1 (dests.length - 2)).reverse).map (fun x =>
    (combosLex x (List.range' 1 (dests.length - 1))).map (fun c =>
      (0 :: c, ((0 :: c).map (fun i => (dests.getD i dfltDest).priority)).sum)))).flatten

/-- Stable descending insertion: walk past strictly larger keys, insert before
the first key ≤ its own — the order produced by Python's stable
`sort(key=priority, reverse=True)`. -/
def insDesc (p : List ℕ × ℕ) : List (List ℕ × ℕ) → List (List ℕ × ℕ)
  | [] => [p]
  | q :: qs => if p.2 < q.2 then q :: insDesc p qs else p :: q :: qs

/-- Stable sort by total priority, highest first (line 95). -/
def sortPriorityDesc (l : List (List ℕ × ℕ)) : List (List ℕ × ℕ) :=
  l.foldr insDesc []

/-- The candidate subsets in the exact order `plan_mission`'s loop tries
them. -/
def candidateList (dests : List Destination) : List (List ℕ × ℕ) :=
  sortPriorityDesc (candidatePool dests)

/-- The `.fuel_burned` view of the adjacency matrix, which is all the solver
reads. -/
def fuelOf (M : AdjMat) : ℕ → ℕ → ℚ :=
  fun i j => ((M.entry i j).map waypoint_info.fuel_burned).getD 0

/-- Line 67: the start `Destination` (priority 0, arrival time copied from the
current first destination) inserted at index 0. -/
def planDests (startW : Waypoint) (ds : List Destination) : List Destination :=
  ⟨startW, (ds.getD 0 dfltDest).arrival_time, 0, false⟩ :: ds

/-- One iteration of the subset loop (lines 96-109): map the candidate's
indices to destinations, take the `np.ix_` submatrix over `indices ++ [N]`,
solve, and build the `Mission` when the returned cost beats the budget. -/
def tryCandidate (w : ℕ → ℕ → ℚ) (budget : ℚ) (dests : List Destination)
    (endW : Waypoint) (c : List ℕ × ℕ) : Option Mission :=
  let dest_list := c.1.map (fun i => dests.getD i dfltDest)
  let idx := c.1 ++ [dests.length]
  let sw := fun p q => w (idx.getD p 0) (idx.getD q 0)
  let r := calc_TSP_opt sw dest_list.length dest_list
  if r.best_path_length < budget then
    some (mkMission (r.best_path.map (fun i => dest_list.getD i dfltDest) ++
      [⟨endW, (dests.getD (r.best_path.getD (r.best_path.length - 1) 0)
        dfltDest).arrival_time, 0, false⟩]))
  else none

/-- The `for mission in possible_missions` loop with its early `return`. -/
def planLoop (mk : List ℕ × ℕ → Option Mission) :
    List (List ℕ × ℕ) → Option Mission
  | [] => none
  | c :: cs =>
    match mk c with
    | some m => some m
    | none => planLoop mk cs

/-- `plan_mission` (lines 57-110), parametrised by the geodesic collaborator,
the vessel's speed and fuel budget (`fuel_weight`), the start/end waypoints
and the planner's destination list. -/
def plan_mission (gdist : Waypoint → Waypoint → ℚ) (speed budget : ℚ)
    (startW endW : Waypoint) (ds : List Destination) : Mission :=
  let dests := planDests startW ds
  let w := fuelOf (waypoint_list_to_matrix gdist speed dests endW)
  let r := calc_TSP_opt w dests.length dests
  if r.best_path_length < budget then
    mkMission (r.best_path.map (fun i => dests.getD i dfltDest) ++
      [⟨endW, (dests.getD (r.best_path.getD (r.best_path.length - 1) 0)
        dfltDest).arrival_time, 0, false⟩])
  else
    match planLoop (tryCandidate w budget dests endW) (candidateList dests) with
    | some m => m
    | none => mkMission [⟨startW, ArrTime.nowFn, 0, false⟩]

/-! ## C10: mutation of caller-owned data -/

/-- C10 counterexample: the planner constructor permanently deletes the last
destination of the caller's list, and the greedy constructor returns the
destination list with destination 0 permanently marked visited — both
mutations survive the call. -/
theorem planner_mutates_caller_data :
    plannerInitDests [dfltDest, dfltDest] = [dfltDest] ∧
    ([dfltDest] : List Destination) ≠ [dfltDest, dfltDest] ∧
    (calc_TSP_fast (fun _ _ => 0) 1 [dfltDest]).2 ≠ [dfltDest] := by
  refine ⟨rfl, by decide, by decide⟩

/-- C10 (amended): planning is not stateless towards caller-owned data — the
`missionPlanner` constructor shortens the vessel's destination list by one,
and `calc_TSP_fast` leaves destination 0's `visited` flag set, with no code
ever clearing it. -/
theorem planning_mutations_persist (ds : List Destination) (hds : ds ≠ [])
    (w : ℕ → ℕ → ℚ) (n : ℕ) (d : Destination) (t : List Destination)
    (hv : d.visited = false) :
    plannerInitDests ds ≠ ds ∧
    (calc_TSP_fast w n (d :: t)).2 ≠ d :: t := by
  constructor
  · intro h
    have hlen := congrArg List.length h
    rw [plannerInitDests, List.length_dropLast] at hlen
    have hpos : 0 < ds.length := List.length_pos.mpr hds
    omega
  · intro h
    have h2 : markHeadVisited (d :: t) = d :: t := h
    rw [markHeadVisited] at h2
    have h3 : ({ d with visited := true } : Destination) = d := (List.cons.injEq _ _ _ _ ▸ h2 :
      ({ d with visited := true } : Destination) = d ∧ t = t).1
    have h4 : (true : Bool) = d.visited := congrArg Destination.visited h3
    rw [hv] at h4
    exact Bool.noConfusion h4

theorem planning_mutations_persist_witness :
    (([dfltDest] : List Destination) ≠ [] ∧ dfltDest.visited = false) ∧
    (plannerInitDests [dfltDest] ≠ [dfltDest] ∧
     (calc_TSP_fast (fun _ _ => 0) 1 (dfltDest :: [])).2 ≠ dfltDest :: []) :=
  ⟨⟨by decide, by decide⟩,
    planning_mutations_persist [dfltDest] (by decide) (fun _ _ => 0) 1 dfltDest []
      (by decide)⟩

/-! ## C2: order in which candidate subsets are tried -/

/-- Four destinations (start at index 0) with priorities 0, 0, 1, 10: a
priority profile on which priority order and size order disagree. -/
def destsC2 : List Destination :=
  [mkDestination ⟨0, 0⟩ (ArrTime.stamp 0) 0,
   mkDestination ⟨0, 0⟩ (ArrTime.stamp 0) 0,
   mkDestination ⟨0, 0⟩ (ArrTime.stamp 0) 1,
   mkDestination ⟨0, 0⟩ (ArrTime.stamp 0) 10]

/-- C2 counterexample: with priorities 0, 0, 1, 10 the loop's try order is
`{0,2,3}, {0,1,3}, {0,3}, {0,1,2}, {0,2}, {0,1}` — the size-2 subset `{0,3}`
(priority 10) is tried before the size-3 subset `{0,1,2}` (priority 1), so it
is false that every subset of size `s` is attempted before any of size
`s-1`. -/
theorem subset_order_not_size_major :
    (candidateList destsC2).map Prod.fst =
      [[0, 2, 3], [0, 1, 3], [0, 3], [0, 1, 2], [0, 2], [0, 1]] ∧
    ¬ ((candidateList destsC2).map (fun c => c.1.length)).Pairwise (· ≥ ·) := by
  exact ⟨by decide, by decide⟩

theorem insDesc_perm (p : List ℕ × ℕ) :
    ∀ l : List (List ℕ × ℕ), List.Perm (insDesc p l) (p :: l) := by
  intro l
  induction l with
  | nil => exact List.Perm.refl _
  | cons q qs ih =>
    rw [insDesc]
    by_cases h : p.2 < q.2
    · rw [if_pos h]
      exact (List.Perm.cons q ih).trans (List.Perm.swap p q qs)
    · rw [if_neg h]

theorem sortPriorityDesc_perm (l : List (List ℕ × ℕ)) :
    List.Perm (sortPriorityDesc l) l := by
  induction l with
  | nil => exact List.Perm.refl _
  | cons p t ih =>
    rw [sortPriorityDesc, List.foldr_cons]
    exact (insDesc_perm p _).trans (List.Perm.cons p ih)

theorem insDesc_pairwise (p : List ℕ × ℕ) :
    ∀ l : List (List ℕ × ℕ), l.Pairwise (fun a b => b.2 ≤ a.2) →
    (insDesc p l).Pairwise (fun a b => b.2 ≤ a.2) := by
  intro l
  induction l with
  | nil => intro _; exact List.pairwise_singleton _ p
  | cons q qs ih =>
    intro h
    rw [List.pairwise_cons] at h
    rw [insDesc]
    by_cases hc : p.2 < q.2
    · rw [if_pos hc]
      rw [List.pairwise_cons]
      constructor
      · intro r hr
        have hr' := (insDesc_perm p qs).mem_iff.mp hr
        rcases List.mem_cons.mp hr' with h1 | h1
        · rw [h1]; exact le_of_lt hc
        · exact h.1 r h1
      · exact ih h.2
    · rw [if_neg hc]
      rw [List.pairwise_cons]
      refine ⟨?_, List.pairwise_cons.mpr h⟩
      intro r hr
      rcases List.mem_cons.mp hr with h1 | h1
      · rw [h1]; omega
      · exact le_trans (h.1 r h1) (by omega)

theorem sortPriorityDesc_pairwise (l : List (List ℕ × ℕ)) :
    (sortPriorityDesc l).Pairwise (fun a b => b.2 ≤ a.2) := by
  induction l with
  | nil => exact List.Pairwise.nil
  | cons p t ih =>
    rw [sortPriorityDesc, List.foldr_cons]
    exact insDesc_pairwise p _ ih

theorem planLoop_eq_find (mk : List ℕ × ℕ → Option Mission) :
    ∀ l : List (List ℕ × ℕ),
    planLoop mk l = (l.find? (fun c => (mk c).isSome)).bind mk := by
  intro l
  induction l with
  | nil => rfl
  | cons c cs ih =>
    rw [planLoop]
    cases h : mk c with
    | some m =>
      rw [List.find?_cons_of_pos _ (by rw [h]; rfl), Option.bind, h]
    | none =>
      rw [List.find?_cons_of_neg _ (by rw [h]; simp), ih]

/-- C2 (amended): the candidate pool mixes all sizes (`N-2` down to 1) into a
single list and sorts it only by total priority, descending and stably; the
subset loop then returns the first feasible candidate of that globally
priority-ordered list — size does not participate in the order. -/
theorem candidate_order_priority_only (dests : List Destination)
    (mk : List ℕ × ℕ → Option Mission) :
    (candidateList dests).Pairwise (fun a b => b.2 ≤ a.2) ∧
    List.Perm (candidateList dests) (candidatePool dests) ∧
    planLoop mk (candidateList dests) =
      ((candidateList dests).find? (fun c => (mk c).isSome)).bind mk :=
  ⟨sortPriorityDesc_pairwise _, sortPriorityDesc_perm _, planLoop_eq_find mk _⟩

/-! ## C7 machinery: the solver's returned cost is the cost of some tour

`genPerms` explores in-place swaps of the shared path list; every value ever
stored in `best_path_length` is the `tourFuel` of a permutation of the seed
order that keeps position 0 fixed. -/

theorem foldl_invar {α β : Type} (P : α → Prop) (f : α → β → α) :
    ∀ (l : List β) (a : α), P a → (∀ x b, b ∈ l → P x → P (f x b)) →
    P (l.foldl f a)
  | [], _, h, _ => h
  | b :: t, a, h, hstep =>
    foldl_invar P f t (f a b) (hstep a b (List.mem_cons_self b t) h)
      (fun x c hc hx => hstep x c (List.mem_cons_of_mem b hc) hx)

theorem getD_set_nat : ∀ (l : List ℕ) (i j x : ℕ),
    (l.set i x).getD j 0 = if i = j ∧ j < l.length then x else l.getD j 0
  | [], _, _, _ => by simp
  | a :: t, 0, 0, x => by simp
  | a :: t, 0, j + 1, x => by simp
  | a :: t, i + 1, 0, x => by simp [List.set]
  | a :: t, i + 1, j + 1, x => by
    simp only [List.set, List.getD_cons_succ, List.length_cons]
    rw [getD_set_nat t i j x]
    exact if_congr (by omega) rfl rfl

theorem swapIdx_length (l : List ℕ) (a b : ℕ) : (swapIdx l a b).length = l.length := by
  rw [swapIdx, List.length_set, List.length_set]

theorem count_set_nat : ∀ (l : List ℕ) (i x v : ℕ), i < l.length →
    (l.set i x).count v + (if l.getD i 0 = v then 1 else 0) =
      l.count v + (if x = v then 1 else 0)
  | [], _, _, _, h => by simp at h
  | a :: t, 0, x, v, _ => by
    simp only [List.set, List.count_cons, List.getD_cons_zero, beq_iff_eq]
    split_ifs <;> omega
  | a :: t, i + 1, x, v, h => by
    simp only [List.set, List.count_cons, List.getD_cons_succ, beq_iff_eq]
    have ih := count_set_nat t i x v (by simpa using h)
    split_ifs at ih ⊢ <;> omega

theorem swapIdx_perm (l : List ℕ) (a b : ℕ) (ha : a < l.length) (hb : b < l.length) :
    List.Perm (swapIdx l a b) l := by
  rw [List.perm_iff_count]
  intro v
  have h1 := count_set_nat (l.set a (l.getD b 0)) b (l.getD a 0) v
    (by rw [List.length_set]; exact hb)
  have h2 := count_set_nat l a (l.getD b 0) v ha
  have hgb : (l.set a (l.getD b 0)).getD b 0 = l.getD b 0 := by
    rw [getD_set_nat]
    split_ifs <;> rfl
  rw [hgb] at h1
  rw [swapIdx]
  split_ifs at h1 h2 <;> omega

theorem headI_set (l : List ℕ) (i x : ℕ) (hi : 1 ≤ i) : (l.set i x).headI = l.headI := by
  cases l with
  | nil => rfl
  | cons a t =>
    cases i with
    | zero => omega
    | succ i => rfl

theorem swapIdx_headI (l : List ℕ) (a b : ℕ) (ha : 1 ≤ a) (hb : 1 ≤ b) :
    (swapIdx l a b).headI = l.headI := by
  rw [swapIdx, headI_set _ _ _ hb, headI_set _ _ _ ha]

theorem swapIdx_swapIdx (l : List ℕ) (a b : ℕ) (ha : a < l.length) (hb : b < l.length) :
    swapIdx (swapIdx l a b) a b = l := by
  have hXlen : (swapIdx l a b).length = l.length := swapIdx_length l a b
  have hva : (swapIdx l a b).getD b 0 = l.getD a 0 := by
    rw [swapIdx, getD_set_nat, if_pos ⟨rfl, by rw [List.length_set]; exact hb⟩]
  have hvb : (swapIdx l a b).getD a 0 = l.getD b 0 := by
    rw [swapIdx, getD_set_nat]
    by_cases hba : b = a
    · rw [if_pos ⟨hba, by rw [List.length_set]; exact ha⟩, hba]
    · rw [if_neg (fun h => hba h.1), getD_set_nat, if_pos ⟨rfl, ha⟩]
  have hother : ∀ k, b ≠ k → a ≠ k → (swapIdx l a b).getD k 0 = l.getD k 0 := by
    intro k hbk hak
    rw [swapIdx, getD_set_nat, if_neg (fun h => hbk h.1), getD_set_nat,
      if_neg (fun h => hak h.1)]
  apply List.ext_getElem (by rw [swapIdx_length, swapIdx_length])
  intro j h1 h2
  have hkey : (swapIdx (swapIdx l a b) a b).getD j 0 = l.getD j 0 := by
    rw [show swapIdx (swapIdx l a b) a b =
      ((swapIdx l a b).set a ((swapIdx l a b).getD b 0)).set b
        ((swapIdx l a b).getD a 0) from rfl]
    rw [hva, hvb, getD_set_nat]
    by_cases hjb : b = j
    · rw [if_pos ⟨hjb, by rw [List.length_set, hXlen]; exact h2⟩, hjb]
    · rw [if_neg (fun h => hjb h.1), getD_set_nat]
      by_cases hja : a = j
      · rw [if_pos ⟨hja, by rw [hXlen]; exact h2⟩, hja]
      · rw [if_neg (fun h => hja h.1), hother j hjb hja]
  rw [List.getD_eq_getElem _ _ h1, List.getD_eq_getElem _ _ h2] at hkey
  exact hkey

theorem genPerms_curr_eq (w : ℕ → ℕ → ℚ) (numCoords : ℕ) :
    ∀ (rem : ℕ) (s : SolverState), rem + 1 ≤ s.curr.length →
    (genPerms w numCoords rem s).curr = s.curr := by
  intro rem
  induction rem with
  | zero =>
    intro s _
    simp only [genPerms]
    split
    · rfl
    · rfl
  | succ rem ih =>
    intro s hlen
    simp only [genPerms]
    split
    · rfl
    · refine foldl_invar (fun st => st.curr = s.curr) _ _ s rfl ?_
      intro st i hi hc
      have him := List.mem_range'_1.mp hi
      have hrec := ih ⟨swapIdx st.curr (s.curr.length - (rem + 1)) i, st.bestLen⟩
        (by show rem + 1 ≤ (swapIdx st.curr (s.curr.length - (rem + 1)) i).length
            rw [swapIdx_length, hc]; omega)
      show swapIdx (genPerms w numCoords rem
          ⟨swapIdx st.curr (s.curr.length - (rem + 1)) i, st.bestLen⟩).curr
          (s.curr.length - (rem + 1)) i = s.curr
      rw [hrec]
      show swapIdx (swapIdx st.curr (s.curr.length - (rem + 1)) i)
          (s.curr.length - (rem + 1)) i = s.curr
      rw [swapIdx_swapIdx st.curr _ i (by rw [hc]; omega) (by rw [hc]; omega), hc]

theorem genPerms_bestLen_reach (w : ℕ → ℕ → ℚ) (numCoords : ℕ) :
    ∀ (rem : ℕ) (s : SolverState), rem + 1 ≤ s.curr.length →
    (genPerms w numCoords rem s).bestLen = s.bestLen ∨
    ∃ p, List.Perm p s.curr ∧ p.headI = s.curr.headI ∧
      (genPerms w numCoords rem s).bestLen = tourFuel w numCoords p := by
  intro rem
  induction rem with
  | zero =>
    intro s _
    simp only [genPerms]
    split
    · exact Or.inr ⟨s.curr, List.Perm.refl _, rfl, rfl⟩
    · exact Or.inl rfl
  | succ rem ih =>
    intro s hlen
    simp only [genPerms]
    split
    · exact Or.inl rfl
    · refine (foldl_invar
        (fun st => st.curr = s.curr ∧ (st.bestLen = s.bestLen ∨
          ∃ p, List.Perm p s.curr ∧ p.headI = s.curr.headI ∧
            st.bestLen = tourFuel w numCoords p))
        _ _ s ⟨rfl, Or.inl rfl⟩ ?_).2
      rintro st i hi ⟨hc, hb⟩
      have him := List.mem_range'_1.mp hi
      have hswlen : rem + 1 ≤ (swapIdx st.curr (s.curr.length - (rem + 1)) i).length := by
        rw [swapIdx_length, hc]; omega
      constructor
      · have hrec := genPerms_curr_eq w numCoords rem
          ⟨swapIdx st.curr (s.curr.length - (rem + 1)) i, st.bestLen⟩ hswlen
        show swapIdx (genPerms w numCoords rem
            ⟨swapIdx st.curr (s.curr.length - (rem + 1)) i, st.bestLen⟩).curr
            (s.curr.length - (rem + 1)) i = s.curr
        rw [hrec]
        show swapIdx (swapIdx st.curr (s.curr.length - (rem + 1)) i)
            (s.curr.length - (rem + 1)) i = s.curr
        rw [swapIdx_swapIdx st.curr _ i (by rw [hc]; omega) (by rw [hc]; omega), hc]
      · have hreach := ih ⟨swapIdx st.curr (s.curr.length - (rem + 1)) i, st.bestLen⟩
          hswlen
        show (genPerms w numCoords rem
            ⟨swapIdx st.curr (s.curr.length - (rem + 1)) i, st.bestLen⟩).bestLen =
            s.bestLen ∨ _
        rcases hreach with h | ⟨p, hp, hph, hpe⟩
        · rcases hb with hb | ⟨p, hp, hph, hpe⟩
          · exact Or.inl (h.trans hb)
          · exact Or.inr ⟨p, hp, hph, h.trans hpe⟩
        · refine Or.inr ⟨p, ?_, ?_, hpe⟩
          · have hsw : List.Perm (swapIdx st.curr (s.curr.length - (rem + 1)) i)
                st.curr :=
              swapIdx_perm _ _ _ (by rw [hc]; omega) (by rw [hc]; omega)
            rw [← hc]
            exact hp.trans hsw
          · rw [← hc]
            exact hph.trans (swapIdx_headI st.curr _ i (by omega) (by omega))

theorem bestInsertScan_lt (w : ℕ → ℕ → ℚ) (v : ℕ) (edges : List ℕ)
    (h : edges ≠ []) : bestInsertScan w v edges < edges.length := by
  have hlen : 0 < edges.length := List.length_pos.mpr h
  rw [bestInsertScan]
  refine foldl_invar (fun acc : ℕ × CostI => acc.1 < edges.length) _ _ _ hlen ?_
  intro acc i hi _
  have hi' : i < edges.length := List.mem_range.mp hi
  dsimp only
  split <;> split <;> first | exact hi' | assumption

theorem fastEdges_fold (w : ℕ → ℕ → ℚ) :
    ∀ (L : List ℕ) (edges : List ℕ), edges ≠ [] →
    (L.foldl (fun e v => e.insertIdx (bestInsertScan w v e + 1) v) edges) ≠ [] ∧
    (L.foldl (fun e v => e.insertIdx (bestInsertScan w v e + 1) v) edges).headI =
      edges.headI ∧
    List.Perm (L.foldl (fun e v => e.insertIdx (bestInsertScan w v e + 1) v) edges)
      (edges ++ L) := by
  intro L
  induction L with
  | nil => intro edges h; exact ⟨h, rfl, by simp⟩
  | cons v T ih =>
    intro edges h
    obtain ⟨a, t, rfl⟩ := List.exists_cons_of_ne_nil h
    have hins : bestInsertScan w v (a :: t) + 1 ≤ (a :: t).length :=
      bestInsertScan_lt w v (a :: t) h
    rw [List.foldl_cons]
    have hcons : (a :: t).insertIdx (bestInsertScan w v (a :: t) + 1) v =
        a :: t.insertIdx (bestInsertScan w v (a :: t)) v :=
      List.insertIdx_succ_cons t a v _
    obtain ⟨hne, hhead, hperm⟩ := ih ((a :: t).insertIdx
      (bestInsertScan w v (a :: t) + 1) v) (by rw [hcons]; exact List.cons_ne_nil a _)
    refine ⟨hne, ?_, ?_⟩
    · rw [hhead, hcons]
      rfl
    · refine hperm.trans ?_
      have h1 : List.Perm ((a :: t).insertIdx (bestInsertScan w v (a :: t) + 1) v ++ T)
          ((v :: (a :: t)) ++ T) :=
        (List.perm_insertIdx v (a :: t) hins).append_right T
      refine h1.trans ?_
      exact List.perm_middle.symm

theorem fastEdges_spec (w : ℕ → ℕ → ℚ) (n : ℕ) (hn : 1 ≤ n) :
    fastEdges w n ≠ [] ∧ (fastEdges w n).headI = 0 ∧
    List.Perm (fastEdges w n) (List.range n) := by
  have h := fastEdges_fold w (List.range' 1 (n - 1)) [0] (by simp)
  have heq : (([0] : List ℕ) ++ List.range' 1 (n - 1)) = List.range n := by
    rw [List.range_eq_range']
    cases n with
    | zero => omega
    | succ m =>
      rw [List.range'_succ]
      simp
  rw [heq] at h
  exact ⟨h.1, h.2.1, h.2.2⟩

theorem calc_TSP_opt_bestLen_tour (w : ℕ → ℕ → ℚ) (n : ℕ) (dests : List Destination)
    (hn : 1 ≤ n) :
    ∃ p, List.Perm p (List.range n) ∧ p.headI = 0 ∧
      (calc_TSP_opt w n dests).best_path_length = tourFuel w n p := by
  obtain ⟨hne, hhead, hperm⟩ := fastEdges_spec w n hn
  have hlen : 1 ≤ (fastEdges w n).length := List.length_pos.mpr hne
  have hG : (calc_TSP_opt w n dests).best_path_length =
      (genPerms w n ((fastEdges w n).length - 1)
        ⟨fastEdges w n, tourFuel w n (fastEdges w n)⟩).bestLen := rfl
  have h := genPerms_bestLen_reach w n ((fastEdges w n).length - 1)
    ⟨fastEdges w n, tourFuel w n (fastEdges w n)⟩
    (by show (fastEdges w n).length - 1 + 1 ≤ (fastEdges w n).length; omega)
  rcases h with h | ⟨p, hp, hph, hpe⟩
  · exact ⟨fastEdges w n, hperm, hhead, by rw [hG]; exact h⟩
  · exact ⟨p, hp.trans hperm, hph.trans hhead, by rw [hG]; exact hpe⟩

theorem candidatePool_mem_shape (dests : List Destination) :
    ∀ c ∈ candidatePool dests, ∃ t, c.1 = 0 :: t := by
  intro c hc
  rw [candidatePool, List.mem_flatten] at hc
  obtain ⟨l, hl, hcl⟩ := hc
  rw [List.mem_map] at hl
  obtain ⟨x, _, hx⟩ := hl
  rw [← hx, List.mem_map] at hcl
  obtain ⟨cc, _, hcc⟩ := hcl
  exact ⟨cc, by rw [← hcc]⟩

theorem candidateList_mem_shape (dests : List Destination) :
    ∀ c ∈ candidateList dests, ∃ t, c.1 = 0 :: t :=
  fun c hc => candidatePool_mem_shape dests c
    ((sortPriorityDesc_perm (candidatePool dests)).mem_iff.mp hc)

/-- C7: when the full destination set allows no visiting order within the fuel
budget and neither does any pooled candidate subset (all sizes down to a
single destination beyond the start), `plan_mission` returns, rather than
raising, the degenerate `Mission` holding only the start destination (with
`datetime.now` stored as its arrival time), whose `total_priority` is 0. -/
theorem plan_mission_infeasible_fallback (gdist : Waypoint → Waypoint → ℚ)
    (speed budget : ℚ) (startW endW : Waypoint) (ds : List Destination)
    (hfull : ∀ p ∈ (List.range (planDests startW ds).length).permutations,
      p.headI = 0 →
      ¬ tourFuel (fuelOf (waypoint_list_to_matrix gdist speed (planDests startW ds)
        endW)) (planDests startW ds).length p < budget)
    (hsub : ∀ c ∈ candidateList (planDests startW ds),
      ∀ p ∈ (List.range c.1.length).permutations, p.headI = 0 →
      ¬ tourFuel (fun a b =>
          fuelOf (waypoint_list_to_matrix gdist speed (planDests startW ds) endW)
            ((c.1 ++ [(planDests startW ds).length]).getD a 0)
            ((c.1 ++ [(planDests startW ds).length]).getD b 0))
        c.1.length p < budget) :
    plan_mission gdist speed budget startW endW ds =
      mkMission [⟨startW, ArrTime.nowFn, 0, false⟩] ∧
    (plan_mission gdist speed budget startW endW ds).total_priority = 0 := by
  have hdlen : 1 ≤ (planDests startW ds).length := by
    rw [planDests]
    exact Nat.succ_le_succ (Nat.zero_le _)
  have hnotfull : ¬ (calc_TSP_opt
      (fuelOf (waypoint_list_to_matrix gdist speed (planDests startW ds) endW))
      (planDests startW ds).length (planDests startW ds)).best_path_length <
      budget := by
    intro hlt
    obtain ⟨p, hp, hph, hpe⟩ := calc_TSP_opt_bestLen_tour
      (fuelOf (waypoint_list_to_matrix gdist speed (planDests startW ds) endW))
      (planDests startW ds).length (planDests startW ds) hdlen
    exact hfull p (List.mem_permutations.mpr hp) hph (by rw [← hpe]; exact hlt)
  have hnone : ∀ c ∈ candidateList (planDests startW ds),
      tryCandidate (fuelOf (waypoint_list_to_matrix gdist speed (planDests startW ds)
        endW)) budget (planDests startW ds) endW c = none := by
    intro c hc
    obtain ⟨t, hct⟩ := candidateList_mem_shape (planDests startW ds) c hc
    have hclen : 1 ≤ c.1.length := by rw [hct]; simp
    have hmlen : (c.1.map (fun i => (planDests startW ds).getD i dfltDest)).length =
        c.1.length := List.length_map _ _
    have hcond : ¬ (calc_TSP_opt
        (fun a b => fuelOf (waypoint_list_to_matrix gdist speed (planDests startW ds)
          endW) ((c.1 ++ [(planDests startW ds).length]).getD a 0)
          ((c.1 ++ [(planDests startW ds).length]).getD b 0))
        (c.1.map (fun i => (planDests startW ds).getD i dfltDest)).length
        (c.1.map (fun i => (planDests startW ds).getD i dfltDest))).best_path_length <
        budget := by
      intro hlt
      obtain ⟨p, hp, hph, hpe⟩ := calc_TSP_opt_bestLen_tour
        (fun a b => fuelOf (waypoint_list_to_matrix gdist speed (planDests startW ds)
          endW) ((c.1 ++ [(planDests startW ds).length]).getD a 0)
          ((c.1 ++ [(planDests startW ds).length]).getD b 0))
        (c.1.map (fun i => (planDests startW ds).getD i dfltDest)).length
        (c.1.map (fun i => (planDests startW ds).getD i dfltDest))
        (by rw [hmlen]; exact hclen)
      rw [hmlen] at hp hpe hlt
      exact hsub c hc p (List.mem_permutations.mpr hp) hph (by rw [← hpe]; exact hlt)
    simp only [tryCandidate]
    rw [if_neg hcond]
  have hloop : planLoop (tryCandidate (fuelOf (waypoint_list_to_matrix gdist speed
      (planDests startW ds) endW)) budget (planDests startW ds) endW)
      (candidateList (planDests startW ds)) = none := by
    rw [planLoop_eq_find]
    have hfind : (candidateList (planDests startW ds)).find?
        (fun c => ((tryCandidate (fuelOf (waypoint_list_to_matrix gdist speed
          (planDests startW ds) endW)) budget (planDests startW ds) endW) c).isSome) =
        none := by
      rw [List.find?_eq_none]
      intro c hc
      rw [hnone c hc]
      simp
    rw [hfind]
    rfl
  have hmain : plan_mission gdist speed budget startW endW ds =
      mkMission [⟨startW, ArrTime.nowFn, 0, false⟩] := by
    simp only [plan_mission]
    rw [if_neg hnotfull, hloop]
  exact ⟨hmain, by rw [hmain]; rfl⟩

theorem plan_mission_infeasible_fallback_witness :
    ((∀ p ∈ (List.range (planDests ⟨0, 0⟩ [dfltDest]).length).permutations,
        p.headI = 0 →
        ¬ tourFuel (fuelOf (waypoint_list_to_matrix (fun _ _ => 1852) 1
          (planDests ⟨0, 0⟩ [dfltDest]) ⟨0, 0⟩))
          (planDests ⟨0, 0⟩ [dfltDest]).length p < 0) ∧
     (∀ c ∈ candidateList (planDests ⟨0, 0⟩ [dfltDest]),
        ∀ p ∈ (List.range c.1.length).permutations, p.headI = 0 →
        ¬ tourFuel (fun a b =>
            fuelOf (waypoint_list_to_matrix (fun _ _ => 1852) 1
              (planDests ⟨0, 0⟩ [dfltDest]) ⟨0, 0⟩)
              ((c.1 ++ [(planDests ⟨0, 0⟩ [dfltDest]).length]).getD a 0)
              ((c.1 ++ [(planDests ⟨0, 0⟩ [dfltDest]).length]).getD b 0))
          c.1.length p < 0)) ∧
    (plan_mission (fun _ _ => 1852) 1 0 ⟨0, 0⟩ ⟨0, 0⟩ [dfltDest] =
        mkMission [⟨⟨0, 0⟩, ArrTime.nowFn, 0, false⟩] ∧
      (plan_mission (fun _ _ => 1852) 1 0 ⟨0, 0⟩ ⟨0, 0⟩ [dfltDest]).total_priority =
        0) :=
  ⟨⟨by with_unfolding_all decide, by with_unfolding_all decide⟩,
    plan_mission_infeasible_fallback (fun _ _ => 1852) 1 0 ⟨0, 0⟩ ⟨0, 0⟩ [dfltDest]
      (by with_unfolding_all decide) (by with_unfolding_all decide)⟩

end RouteOpt
